import Mathlib

/-!
Verification of the Surf disk-space analyzer against its natural-language
specification.  The Rust sources are shallowly embedded: `u64` values become
`Nat` with the saturating operations made explicit against `2^64 - 1`,
strings become `String` or `List Char` (Rust `&str` / `PathBuf` handled as
character or component lists), filesystem paths in the TUI tree model become
component lists (`List String`), fallible functions return `Except`/`Option`,
and stateful code is written in explicit state-passing style.  Every
definition mirrors a specific function of the repository, named in its doc
comment.
-/

namespace Surf

/-- `u64::MAX`: Rust arithmetic in the sources always uses the saturating
operations, so values never exceed this bound. -/
def U64MAX : Nat := 2 ^ 64 - 1

/-- Model of Rust `u64::saturating_add`. -/
def satAdd (a b : Nat) : Nat := min (a + b) U64MAX

/-- Model of Rust `u64::saturating_mul`. -/
def satMul (a b : Nat) : Nat := min (a * b) U64MAX

/-- Model of Rust `u64::saturating_sub` (on `Nat`, subtraction already
saturates at zero). -/
def satSub (a b : Nat) : Nat := a - b

/-- ASCII whitespace test: models Rust `char::is_whitespace` on the ASCII
inputs the size codecs handle. -/
def isWs (c : Char) : Bool := c == ' ' || c == '\t' || c == '\n' || c == '\r'

/-- Model of `str::trim` on a character list. -/
def trimChars (s : List Char) : List Char :=
  ((s.dropWhile isWs).reverse.dropWhile isWs).reverse

/-- Numeric value of an ASCII digit string (model of the successful case of
Rust `str::parse::<u64>` on digit-only input). -/
def digitsToNat (s : List Char) : Nat :=
  s.foldl (fun acc c => acc * 10 + (c.toNat - '0'.toNat)) 0

/-- Convenience: the character list of a string literal. -/
def chars (s : String) : List Char := s.data

namespace SizeCodec

/-- Embeds `parse_size` from `dev-cli-tui/surf-cli/src/main.rs` (lines
84-109): trim; split at the first non-ASCII-digit character; parse the digit
prefix as `u64` (failing when empty or exceeding `u64::MAX`); trim and
ASCII-uppercase the unit; multipliers for `""|B`, `K|KB`, `M|MB`, `G|GB`;
any other unit is an error; final multiplication saturates. -/
def parse_size (input : List Char) : Except String Nat :=
  let s := trimChars input
  if s.isEmpty then .ok 0
  else
    let numPart := s.takeWhile (fun c => c.isDigit)
    let unitPart := s.dropWhile (fun c => c.isDigit)
    if numPart.isEmpty then .error "invalid size number"
    else if U64MAX < digitsToNat numPart then .error "invalid size number"
    else
      let value := digitsToNat numPart
      let unit := (trimChars unitPart).map Char.toUpper
      if unit = [] ∨ unit = ['B'] then .ok (satMul value 1)
      else if unit = ['K'] ∨ unit = ['K', 'B'] then .ok (satMul value 1024)
      else if unit = ['M'] ∨ unit = ['M', 'B'] then .ok (satMul value (1024 * 1024))
      else if unit = ['G'] ∨ unit = ['G', 'B'] then .ok (satMul value (1024 * 1024 * 1024))
      else .error "unsupported size unit"

/-- Embeds `parse_size_for_service` from
`dev-service-api/surf-service/src/main.rs` (lines 511-536); its body is
identical to the CLI `parse_size`. -/
def parse_size_for_service (input : List Char) : Except String Nat :=
  let s := trimChars input
  if s.isEmpty then .ok 0
  else
    let numPart := s.takeWhile (fun c => c.isDigit)
    let unitPart := s.dropWhile (fun c => c.isDigit)
    if numPart.isEmpty then .error "invalid size number"
    else if U64MAX < digitsToNat numPart then .error "invalid size number"
    else
      let value := digitsToNat numPart
      let unit := (trimChars unitPart).map Char.toUpper
      if unit = [] ∨ unit = ['B'] then .ok (satMul value 1)
      else if unit = ['K'] ∨ unit = ['K', 'B'] then .ok (satMul value 1024)
      else if unit = ['M'] ∨ unit = ['M', 'B'] then .ok (satMul value (1024 * 1024))
      else if unit = ['G'] ∨ unit = ['G', 'B'] then .ok (satMul value (1024 * 1024 * 1024))
      else .error "unsupported size unit"

/-- The character-classification loop of `parse_size_string`
(`dev-service-api/src/main.rs` lines 88-101): digits and `'.'` go to the
numeric part while the unit part is still empty (otherwise the format is
invalid), whitespace is skipped, and everything else goes to the unit part. -/
def splitNumUnit : List Char → List Char → List Char →
    Except String (List Char × List Char)
  | [], np, up => .ok (np, up)
  | c :: rest, np, up =>
    if c.isDigit || c == '.' then
      if up.isEmpty then splitNumUnit rest (np ++ [c]) up
      else .error "invalid min_size format"
    else if isWs c then splitNumUnit rest np up
    else splitNumUnit rest np (up ++ [c])

/-- Model of `str::parse::<f64>` restricted to strings of digits and dots,
returned as an exact numerator/denominator pair.  The parse succeeds iff
there is at most one `'.'` and at least one digit; the value is
`digits / 10^(number of fractional digits)`.  (On the codec's decimal inputs
with short digit strings this rational value is what the `f64` code path
computes; the binary rounding of `f64` is not modelled.) -/
def parseDecimal (s : List Char) : Option (Nat × Nat) :=
  if (s.filter (fun c => c == '.')).length > 1 then none
  else if (s.filter (fun c => c.isDigit)).isEmpty then none
  else
    let intPart := s.takeWhile (fun c => c != '.')
    let fracPart := (s.dropWhile (fun c => c != '.')).drop 1
    some (digitsToNat (intPart ++ fracPart), 10 ^ fracPart.length)

/-- Embeds `parse_size_string` from `dev-service-api/src/main.rs` (lines
82-127): trim; empty input is an error; split into numeric and unit parts;
an empty numeric part is an error; parse the numeric part as a decimal
number; ASCII-uppercase the unit; multipliers for `""|B`, `K|KB`, `M|MB`,
`G|GB`, `T|TB`; other units are errors.  The final `f64` multiplication and
`as u64` cast are modelled exactly as `(num * mult) / den` in `Nat`
(truncation toward zero), saturated at `u64::MAX`. -/
def parse_size_string (s : List Char) : Except String Nat :=
  let trimmed := trimChars s
  if trimmed.isEmpty then .error "min_size cannot be empty"
  else
    match splitNumUnit trimmed [] [] with
    | .error e => .error e
    | .ok (numPart, unitPart) =>
      if numPart.isEmpty then .error "invalid min_size format"
      else
        match parseDecimal numPart with
        | none => .error "invalid min_size number"
        | some (num, den) =>
          let unit := unitPart.map Char.toUpper
          if unit = [] ∨ unit = ['B'] then .ok (min (num * 1 / den) U64MAX)
          else if unit = ['K'] ∨ unit = ['K', 'B'] then .ok (min (num * 1024 / den) U64MAX)
          else if unit = ['M'] ∨ unit = ['M', 'B'] then .ok (min (num * (1024 * 1024) / den) U64MAX)
          else if unit = ['G'] ∨ unit = ['G', 'B'] then .ok (min (num * (1024 * 1024 * 1024) / den) U64MAX)
          else if unit = ['T'] ∨ unit = ['T', 'B'] then .ok (min (num * (1024 * 1024 * 1024 * 1024) / den) U64MAX)
          else .error "unsupported size unit in min_size"

end SizeCodec

end Surf

namespace Surf

/-- ASCII lowercasing of a string (model of Rust `str::to_lowercase` on the
ASCII mode strings the dispatcher compares). -/
def lowerAscii (s : String) : String := ⟨s.data.map Char.toLower⟩

/-- Minimal model of `serde_json::Value`: the JSON values exchanged on the
wire.  Numbers are modelled as integers (the dispatcher only decodes
integer-valued fields). -/
inductive Json where
  | null
  | bool (b : Bool)
  | num (n : Int)
  | str (s : String)
  | arr (items : List Json)
  | obj (fields : List (String × Json))

namespace Service

/-- `TaskState` from `surf-service/src/main.rs` (lines 42-49). -/
inductive TaskState where
  | queued
  | running
  | completed
  | failed
  | canceled
deriving DecidableEq

/-- The state strings used throughout the dispatcher's responses. -/
def TaskState.toStr : TaskState → String
  | .queued => "queued"
  | .running => "running"
  | .completed => "completed"
  | .failed => "failed"
  | .canceled => "canceled"

/-- `surf_core::ScanProgress` (surf-core/src/lib.rs lines 26-31). -/
structure ScanProgressM where
  scannedFiles : Nat
  scannedBytes : Nat
  totalBytesEstimate : Option Nat
deriving DecidableEq

/-- `surf_core::StatusSnapshot` (surf-core/src/lib.rs lines 33-43): the
observable state behind a `ScanHandle`, as returned by `poll_status`. -/
structure SnapshotM where
  done : Bool
  progress : ScanProgressM
  error : Option String
deriving DecidableEq

/-- `TaskInfo` from `surf-service/src/main.rs` (lines 55-76).  The
`scan_handle : Option<ScanHandle>` field is modelled by the snapshot the
handle would report when polled (`none` when no handle is attached). -/
structure TaskInfo where
  path : String
  minSizeBytes : Nat
  threads : Nat
  limit : Option Nat
  tag : Option String
  startedAt : Nat
  updatedAt : Nat
  state : TaskState
  scanHandle : Option SnapshotM
deriving DecidableEq

/-- The `TaskManager`'s `HashMap<String, TaskInfo>` modelled as an
association list (lookup returns the first binding). -/
abbrev TaskStore := List (String × TaskInfo)

/-- In-place update of one binding of the store (the effect of mutating the
entry behind `inner.get_mut(task_id)`). -/
def storeSet (store : TaskStore) (taskId : String) (info : TaskInfo) : TaskStore :=
  store.map (fun kv => if kv.1 = taskId then (kv.1, info) else kv)

/-- `TaskManager::get_task_info` (surf-service lines 157-160). -/
def getTaskInfo (store : TaskStore) (taskId : String) : Option TaskInfo :=
  store.lookup taskId

/-- `TaskManager::list_non_terminated_tasks` (surf-service lines 209-226):
keeps exactly the tasks in `Queued` or `Running` state. -/
def listNonTerminated (store : TaskStore) : TaskStore :=
  store.filter (fun kv =>
    match kv.2.state with
    | .queued => true
    | .running => true
    | .completed => false
    | .failed => false
    | .canceled => false)

/-- Result of one `cancel_task` call: the returned
`Option<(TaskState, TaskInfo)>`, the updated store, and whether
`surf_core::cancel` was invoked on the task's handle. -/
structure CancelStep where
  result : Option (TaskState × TaskInfo)
  store : TaskStore
  engineCancelInvoked : Bool

/-- `TaskManager::cancel_task` (surf-service lines 185-203): looks the task
up; `Queued`/`Running` transition to `Canceled` while terminal states are
kept; `surf_core::cancel` runs iff the state moved to `Canceled` from a
non-`Canceled` state and a handle exists; `updated_at` is set to `now`
unconditionally; returns `(previous_state, updated_info)`. -/
def cancelTask (store : TaskStore) (taskId : String) (now : Nat) : CancelStep :=
  match store.lookup taskId with
  | none => ⟨none, store, false⟩
  | some info =>
      let previous := info.state
      let newState : TaskState :=
        match previous with
        | .queued => .canceled
        | .running => .canceled
        | .completed => previous
        | .failed => previous
        | .canceled => previous
      let engine :=
        (newState == TaskState.canceled && !(previous == TaskState.canceled))
          && info.scanHandle.isSome
      let info2 := { info with state := newState, updatedAt := now }
      ⟨some (previous, info2), storeSet store taskId info2, engine⟩

/-- `SurfStatusResult` (surf-service lines 303-317).  The `f64` progress
ratio is carried as the exact pair numerator/denominator
(`scanned_bytes / total_bytes_estimate`, or `0/1` when the estimate is
missing or zero), since floating point is outside the embedding. -/
structure SurfStatusResult where
  taskId : String
  state : String
  progressNum : Nat
  progressDen : Nat
  scannedFiles : Nat
  scannedBytes : Nat
  totalBytesEstimate : Option Nat
  startedAt : Nat
  updatedAt : Nat
  tag : Option String
deriving DecidableEq

/-- `SurfStatusResult::from_task_info` (surf-service lines 319-387), modulo
the write-back of the lazily advanced state to the global task table (a side
effect on the store that does not alter the returned snapshot). -/
def fromTaskInfo (taskId : String) (info : TaskInfo) : SurfStatusResult :=
  match info.scanHandle with
  | some snapshot =>
      let effectiveState :=
        if snapshot.done then
          match info.state with
          | .running => if snapshot.error.isSome then TaskState.failed else TaskState.completed
          | s => s
        else info.state
      let prog :=
        match snapshot.progress.totalBytesEstimate with
        | some total => if 0 < total then (snapshot.progress.scannedBytes, total) else (0, 1)
        | none => (0, 1)
      { taskId := taskId
        state := effectiveState.toStr
        progressNum := prog.1
        progressDen := prog.2
        scannedFiles := snapshot.progress.scannedFiles
        scannedBytes := snapshot.progress.scannedBytes
        totalBytesEstimate := snapshot.progress.totalBytesEstimate
        startedAt := info.startedAt
        updatedAt := info.updatedAt
        tag := info.tag }
  | none =>
      { taskId := taskId
        state := info.state.toStr
        progressNum := 0
        progressDen := 1
        scannedFiles := 0
        scannedBytes := 0
        totalBytesEstimate := none
        startedAt := info.startedAt
        updatedAt := info.updatedAt
        tag := info.tag }

/-- `JsonRpcError` (surf-service lines 424-434): code, message and the
optional `{"detail": ...}` payload. -/
structure ErrObj where
  code : Int
  message : String
  detail : Option String
deriving DecidableEq

/-- `JsonRpcError::invalid_request` with `INVALID_REQUEST = -32600`. -/
def invalidRequest (detail : Option String) : ErrObj :=
  ⟨-32600, "INVALID_REQUEST", detail⟩

/-- `JsonRpcError::method_not_found` with `METHOD_NOT_FOUND = -32601`. -/
def methodNotFound (detail : Option String) : ErrObj :=
  ⟨-32601, "METHOD_NOT_FOUND", detail⟩

/-- `JsonRpcError::invalid_params` with `INVALID_PARAMS = -32602`. -/
def invalidParams (detail : Option String) : ErrObj :=
  ⟨-32602, "INVALID_PARAMS", detail⟩

/-- `JsonRpcError::task_not_found` with `TASK_NOT_FOUND = -32001`. -/
def taskNotFound (detail : Option String) : ErrObj :=
  ⟨-32001, "TASK_NOT_FOUND", detail⟩

/-- `SurfScanResult` (surf-service lines 277-292). -/
structure SurfScanResult where
  taskId : String
  state : String
  path : String
  minSizeBytes : Nat
  threads : Nat
  limit : Option Nat
deriving DecidableEq

/-- `SurfCancelResult` (surf-service lines 389-395). -/
structure SurfCancelResult where
  taskId : String
  previousState : String
  currentState : String
deriving DecidableEq

/-- `SurfGetResultsResult` (surf-service lines 411-422). -/
structure SurfGetResultsResult where
  taskId : String
  state : String
  path : String
  totalFiles : Nat
  totalBytes : Nat
  entries : List Json

/-- The `result` payload of a successful JSON-RPC response, one variant per
success site of `handle_rpc_line`. -/
inductive RpcResult where
  | scanStarted (r : SurfScanResult)
  | statusList (rs : List SurfStatusResult)
  | statusOne (r : SurfStatusResult)
  | cancelDone (r : SurfCancelResult)
  | results (r : SurfGetResultsResult)

/-- A serialized response line: either `JsonRpcErrorResponse` or
`JsonRpcSuccessResponse`, with `id` already defaulted to JSON `null` when
the request had none (`id.unwrap_or(Value::Null)`). -/
inductive Response where
  | err (e : ErrObj) (id : Json)
  | ok (r : RpcResult) (id : Json)

/-- `SurfScanParams` (surf-service lines 255-274). -/
structure SurfScanParams where
  path : String
  min_size : Option String
  threads : Option Nat
  limit : Option Nat
  exclude_patterns : Option (List String)
  tag : Option String

/-- `SurfGetResultsParams` (surf-service lines 398-408). -/
structure SurfGetResultsParams where
  task_id : String
  mode : Option String
  limit : Option Nat

/-- Object-field lookup in a decoded JSON object. -/
def jGet (kvs : List (String × Json)) (k : String) : Option Json := kvs.lookup k

/-- serde decode of an optional `String` field: absent or `null` is `none`,
a string succeeds, anything else is a decode error. -/
def decodeOptString : Option Json → Except Unit (Option String)
  | none => .ok none
  | some .null => .ok none
  | some (.str s) => .ok (some s)
  | some _ => .error ()

/-- serde decode of an optional `usize` field: absent or `null` is `none`,
a non-negative integer succeeds, anything else is a decode error. -/
def decodeOptNat : Option Json → Except Unit (Option Nat)
  | none => .ok none
  | some .null => .ok none
  | some (.num n) => if n < 0 then .error () else .ok (some n.toNat)
  | some _ => .error ()

/-- serde decode of a single JSON string. -/
def decodeStr : Json → Option String
  | .str s => some s
  | _ => none

/-- serde decode of an optional `Vec<String>` field. -/
def decodeOptStrList : Option Json → Except Unit (Option (List String))
  | none => .ok none
  | some .null => .ok none
  | some (.arr items) =>
      match items.mapM decodeStr with
      | some l => .ok (some l)
      | none => .error ()
  | some _ => .error ()

/-- serde decode of `SurfScanParams` from a JSON object (`path` required,
everything else `#[serde(default)]`). -/
def decodeSurfScanParams (kvs : List (String × Json)) : Option SurfScanParams :=
  match jGet kvs "path" with
  | some (.str p) =>
      match decodeOptString (jGet kvs "min_size"), decodeOptNat (jGet kvs "threads"),
          decodeOptNat (jGet kvs "limit"), decodeOptStrList (jGet kvs "exclude_patterns"),
          decodeOptString (jGet kvs "tag") with
      | .ok ms, .ok th, .ok li, .ok ex, .ok tg => some ⟨p, ms, th, li, ex, tg⟩
      | _, _, _, _, _ => none
  | _ => none

/-- serde decode of `SurfGetResultsParams` from a JSON object (`task_id`
required, `mode` and `limit` `#[serde(default)]`). -/
def decodeSurfGetResultsParams (kvs : List (String × Json)) : Option SurfGetResultsParams :=
  match jGet kvs "task_id" with
  | some (.str tid) =>
      match decodeOptString (jGet kvs "mode"), decodeOptNat (jGet kvs "limit") with
      | .ok mo, .ok li => some ⟨tid, mo, li⟩
      | _, _ => none
  | _ => none

/-- `validate_surf_scan_params` (surf-service lines 542-563): `min_size`
must parse via `parse_size_for_service`, and `threads`, when present, must
not be zero. -/
def validateSurfScanParams (p : SurfScanParams) : Except ErrObj Unit :=
  let minOk : Except ErrObj Unit :=
    match p.min_size with
    | some s =>
        match SizeCodec.parse_size_for_service (chars s) with
        | .ok _ => .ok ()
        | .error e => .error (invalidParams (some ("invalid min_size: " ++ e)))
    | none => .ok ()
  match minOk with
  | .error e => .error e
  | .ok _ =>
      match p.threads with
      | some 0 => .error (invalidParams (some "invalid threads: must be >= 1"))
      | _ => .ok ()

/-- One input line of the dispatcher, classified the way
`handle_rpc_line` first sees it: blank after trimming, not valid JSON
(`serde_json::from_str` failed with message `parseErr`), or a parsed JSON
value.  The raw text-to-JSON parse itself is outside the embedding. -/
inductive LineM where
  | blank
  | badJson (parseErr : String)
  | json (v : Json)

/-- The dispatcher's environment for one request: the current task table and
the outcome of the calls `handle_rpc_line` makes into its collaborators
(clock, `num_cpus::get()`, the task-id allocator, and
`surf_core::start_scan`, whose handle is opaque to the response). -/
structure RpcEnv where
  store : TaskStore
  now : Nat
  cpuCount : Nat
  nextTaskId : String
  startScanOk : Bool
  startScanErr : String

/-- serde decode of `JsonRpcRequest` (surf-service lines 241-253) from a
JSON value: an object with string `jsonrpc` and `method`, `params`
defaulting to `null`, and an arbitrary optional `id`. -/
def decodeRequest (v : Json) : Option (String × String × Json × Option Json) :=
  match v with
  | .obj kvs =>
      match jGet kvs "jsonrpc", jGet kvs "method" with
      | some (.str ver), some (.str m) =>
          some (ver, m, (jGet kvs "params").getD .null, jGet kvs "id")
      | _, _ => none
  | _ => none

/-- Whether a JSON value is `null` / an object (`Value::is_null`,
`Value::is_object`). -/
def isNullJ : Json → Bool
  | .null => true
  | _ => false

/-- See `isNullJ`. -/
def isObjJ : Json → Bool
  | .obj _ => true
  | _ => false

/-- Fields of a JSON object (`Value::as_object`, total on the dispatcher's
call sites, which are guarded by `is_object`). -/
def objFields : Json → List (String × Json)
  | .obj kvs => kvs
  | _ => []

/-- Embeds `handle_rpc_line` (surf-service lines 1338-1709).  Stage by
stage: blank lines produce no response; JSON parse failures and request
decode failures produce `INVALID_REQUEST` with `id = null`; a `jsonrpc`
version other than `"2.0"` produces `INVALID_REQUEST` echoing the id;
unsupported methods produce `METHOD_NOT_FOUND`; then the four method
branches as in the source.  Writes to the global task table (task
registration, the lazy state write-back in `Surf.Status`, and the state
update of `Surf.Cancel`) do not affect the returned response and are
modelled separately (`cancelTask` computes the updated store). -/
def handleRpcLine (env : RpcEnv) : LineM → Option Response
  | .blank => none
  | .badJson e =>
      some (.err (invalidRequest (some ("JSON parse error: " ++ e))) .null)
  | .json v =>
    match decodeRequest v with
    | none => some (.err (invalidRequest (some "Invalid request structure")) .null)
    | some (ver, m, params, id) =>
      let rid := id.getD Json.null
      if ver ≠ "2.0" then
        some (.err (invalidRequest (some "jsonrpc must be \"2.0\"")) rid)
      else if m = "Surf.Scan" then
        if isNullJ params then
          some (.err (methodNotFound (some "method not implemented yet")) rid)
        else if !(isObjJ params) then
          some (.err (invalidParams (some ("params must be a JSON object for method " ++ m))) rid)
        else
          match decodeSurfScanParams (objFields params) with
          | none => some (.err (invalidParams (some "invalid Surf.Scan params")) rid)
          | some sp =>
            match validateSurfScanParams sp with
            | .error e => some (.err e rid)
            | .ok _ =>
              let minSizeBytes :=
                match sp.min_size with
                | some s => (SizeCodec.parse_size_for_service (chars s)).toOption.getD 0
                | none => 0
              let threads := sp.threads.getD env.cpuCount
              if env.startScanOk then
                some (.ok (.scanStarted
                  ⟨env.nextTaskId, "running", sp.path, minSizeBytes, threads, sp.limit⟩) rid)
              else
                some (.err (invalidParams
                  (some ("failed to start scan: " ++ env.startScanErr))) rid)
      else if m = "Surf.Status" then
        let listAll : Option Response :=
          some (.ok (.statusList
            ((listNonTerminated env.store).map (fun kv => fromTaskInfo kv.1 kv.2))) rid)
        if isNullJ params then listAll
        else if !(isObjJ params) then
          some (.err (invalidParams (some ("params must be a JSON object for method " ++ m))) rid)
        else
          match jGet (objFields params) "task_id" with
          | none => listAll
          | some (.str tid) =>
              if tid = "" then
                some (.err (invalidParams (some "task_id must be a non-empty string or null")) rid)
              else
                match getTaskInfo env.store tid with
                | some info => some (.ok (.statusOne (fromTaskInfo tid info)) rid)
                | none => some (.err (taskNotFound (some ("task_id not found: " ++ tid))) rid)
          | some .null => listAll
          | some _ => some (.err (invalidParams (some "task_id must be a string or null")) rid)
      else if m = "Surf.Cancel" then
        if isNullJ params then
          some (.err (methodNotFound (some "method not implemented yet")) rid)
        else if !(isObjJ params) then
          some (.err (invalidParams (some ("params must be a JSON object for method " ++ m))) rid)
        else
          match jGet (objFields params) "task_id" with
          | none => some (.err (invalidParams (some "task_id must be a non-empty string")) rid)
          | some (.str tid) =>
              if tid = "" then
                some (.err (invalidParams (some "task_id must be a non-empty string")) rid)
              else
                match (cancelTask env.store tid env.now).result with
                | some (previous, info2) =>
                    some (.ok (.cancelDone ⟨tid, previous.toStr, info2.state.toStr⟩) rid)
                | none => some (.err (taskNotFound (some ("task_id not found: " ++ tid))) rid)
          | some _ => some (.err (invalidParams (some "task_id must be a string")) rid)
      else if m = "Surf.GetResults" then
        if isNullJ params || !(isObjJ params) then
          some (.err (invalidParams (some ("params must be a JSON object for method " ++ m))) rid)
        else
          match decodeSurfGetResultsParams (objFields params) with
          | none => some (.err (invalidParams (some "invalid Surf.GetResults params")) rid)
          | some gp =>
            let modeBad :=
              match gp.mode with
              | some mo =>
                  let ml := lowerAscii mo
                  !(ml = "flat" || ml = "summary")
              | none => false
            if modeBad then
              some (.err (invalidParams (some "unsupported mode for Surf.GetResults")) rid)
            else
              match getTaskInfo env.store gp.task_id with
              | none =>
                  some (.err (taskNotFound (some ("task_id not found: " ++ gp.task_id))) rid)
              | some info =>
                  if info.state ≠ TaskState.completed then
                    some (.err (invalidParams
                      (some ("task is not in completed state (current: "
                        ++ info.state.toStr ++ ")"))) rid)
                  else
                    some (.ok (.results ⟨gp.task_id, "completed", info.path, 0, 0, []⟩) rid)
      else
        some (.err (methodNotFound (some ("method \"" ++ m ++ "\" not found"))) rid)

end Service

namespace Engine

/-- `surf_core::FileEntry` (surf-core/src/lib.rs lines 11-15). -/
structure FileEntry where
  path : String
  size : Nat
deriving DecidableEq

/-- One entry yielded (as `Ok`) by the `WalkDir` iterator: its path, whether
`entry.metadata()` succeeded, whether the metadata marks a regular file, and
the metadata's length. -/
structure WalkEntry where
  path : String
  metaOk : Bool
  isFile : Bool
  size : Nat

/-- The engine-boundary coercion `let threads = threads.max(1)`
(surf-core/src/lib.rs line 60). -/
def effectiveThreads (threads : Nat) : Nat := max threads 1

/-- The comparator `|a, b| b.size.cmp(&a.size)` of `scan` (line 101), as the
relation "`a` sorts no later than `b`": size descending. -/
def entryOrder (a b : FileEntry) : Prop := b.size ≤ a.size

instance : DecidableRel entryOrder := fun a b => Nat.decLe b.size a.size

/-- Embeds `surf_core::scan` (surf-core/src/lib.rs lines 50-103) over an
abstract filesystem: a missing root is `NotFound`; the worker count is
`max(threads, 1)`; a pool-construction failure is an error; otherwise the
walk entries are filtered (metadata errors, non-files, and files below
`min_size` are skipped) and sorted by size descending.  The walk itself and
the thread pool are outside the embedding, so the directory traversal is
abstracted into the entry list `walk` and the pool outcome into
`poolBuildOk`; the result is worker-count independent because the
aggregation is a pure function of the entry stream. -/
def scan (rootExists poolBuildOk : Bool) (walk : List WalkEntry)
    (minSize threads : Nat) : Except String (List FileEntry) :=
  if !rootExists then .error "scan root does not exist"
  else
    let workers := effectiveThreads threads
    if !poolBuildOk then .error "failed to build thread pool"
    else
      let entries := walk.filterMap (fun e =>
        if !e.metaOk then none
        else if !e.isFile then none
        else if e.size < minSize then none
        else some ⟨e.path, e.size⟩)
      let _ := workers
      .ok (List.insertionSort entryOrder entries)

end Engine

end Surf
namespace Surf

/-- Strict byte-lexicographic order on character lists: the model of the
`Ord` instances of Rust `PathBuf`/`str` used by the scanner's comparators
(paths in this codebase are ASCII, where byte order and char order agree). -/
def charListLt : List Char → List Char → Bool
  | [], [] => false
  | [], _ :: _ => true
  | _ :: _, [] => false
  | a :: as, b :: bs =>
      if a.toNat < b.toNat then true
      else if b.toNat < a.toNat then false
      else charListLt as bs

namespace TopList

/-- `FileEntry` from `dev-core-scanner/src/lib.rs` (lines 91-101): path,
size in bytes, optional last-modified timestamp (seconds), optional
lowercased extension. -/
structure FileEntry where
  path : List Char
  size : Nat
  lastModified : Option Nat
  extension : Option (List Char)
deriving DecidableEq

/-- The `Ord` instance of `FileEntry` (lines 103-111) as a strict order:
size ascending, then path ascending (`last_modified` and `extension` do not
participate). -/
def feLt (a b : FileEntry) : Bool :=
  a.size < b.size || (a.size == b.size && charListLt a.path b.path)

/-- The minimum of the `BinaryHeap<Reverse<FileEntry>>` (what `peek`
returns).  The heap is modelled as the list of its elements; among elements
that compare `Equal` under the `FileEntry` order (same size and path) the
Rust heap's choice is unspecified, and the model picks the last pushed. -/
def heapMin : List FileEntry → Option FileEntry
  | [] => none
  | e :: es =>
      match heapMin es with
      | none => some e
      | some m => if feLt m e then some m else some e

/-- `AtomicCounters::add_file_to_top_list` (dev-core-scanner/src/lib.rs
lines 205-228): size-0 entries are dropped; below capacity the entry is
pushed; at capacity the entry replaces the heap minimum iff its size
strictly exceeds the minimum's size (`entry.size_bytes > top.0.size_bytes`);
`pop` removes the minimum that `peek` returned. -/
def addFileToTopList (limit : Nat) (heap : List FileEntry) (path : List Char)
    (size : Nat) (lastModified : Option Nat) (extension : Option (List Char)) :
    List FileEntry :=
  if size = 0 then heap
  else
    let entry : FileEntry := ⟨path, size, lastModified, extension⟩
    if heap.length < limit then entry :: heap
    else
      match heapMin heap with
      | none => heap
      | some top => if top.size < entry.size then entry :: heap.erase top else heap

/-- The comparator `b.size_bytes.cmp(&a.size_bytes).then(b.path.cmp(&a.path))`
of `top_files_to_vec` (line 254), as the relation "`a` sorts no later than
`b`": size descending, path descending as tiebreaker. -/
def topOrder (a b : FileEntry) : Prop :=
  b.size < a.size ∨ (b.size = a.size ∧ (b.path = a.path ∨ charListLt b.path a.path = true))

instance : DecidableRel topOrder := fun _ _ => by
  unfold topOrder; infer_instance

/-- `AtomicCounters::top_files_to_vec` (lines 249-256): the heap contents
sorted by size descending, path descending. -/
def topFilesToVec (heap : List FileEntry) : List FileEntry :=
  List.insertionSort topOrder heap

/-- `let limit = request.limit.unwrap_or(20)` of `Scanner::scan_sync`
(dev-core-scanner/src/lib.rs line 315): the top-list capacity defaults
to 20. -/
def resolveLimit (limit : Option Nat) : Nat := limit.getD 20

/-- One file offered to the aggregator by `parallel_walk_dir` (path, size,
last-modified, lowercased extension). -/
structure RawFile where
  path : List Char
  size : Nat
  lastModified : Option Nat
  extension : Option (List Char)

/-- The heap contents after the workers offered `files` (in some serial
order) through `add_file_to_top_list`, starting from the empty heap. -/
def pushAll (limit : Nat) (files : List RawFile) : List FileEntry :=
  files.foldl
    (fun h f => addFileToTopList limit h f.path f.size f.lastModified f.extension) []

/-- The final `top_files` list of a scan whose workers offered `files`. -/
def runTopList (limit : Nat) (files : List RawFile) : List FileEntry :=
  topFilesToVec (pushAll limit files)

end TopList

namespace Tree

/-- Filesystem paths of the TUI tree model, as component lists: the model of
`PathBuf` under which `parent` is `dropLast`, `starts_with` is the prefix
relation and `file_name` is the last component. -/
abbrev TPath := List String

/-- `NodeType` from `surf-cli/src/tui_model.rs` (lines 9-13). -/
inductive NodeType where
  | file
  | directory
deriving DecidableEq

/-- `DirNode` from `surf-cli/src/tui_model.rs` (lines 16-28). -/
inductive DirNode : Type where
  | mk (name : String) (fullPath : TPath) (nodeType : NodeType) (size : Nat)
      (children : List DirNode)

/-- Field accessor. -/
def DirNode.name : DirNode → String
  | .mk nm _ _ _ _ => nm

/-- Field accessor. -/
def DirNode.fullPath : DirNode → TPath
  | .mk _ fp _ _ _ => fp

/-- Field accessor. -/
def DirNode.nodeType : DirNode → NodeType
  | .mk _ _ ty _ _ => ty

/-- Field accessor. -/
def DirNode.size : DirNode → Nat
  | .mk _ _ _ sz _ => sz

/-- Field accessor. -/
def DirNode.children : DirNode → List DirNode
  | .mk _ _ _ _ cs => cs

/-- `DirNode::is_directory` (tui_model.rs lines 100-102). -/
def DirNode.isDirectory (n : DirNode) : Bool := n.nodeType == NodeType.directory

/-- `DirNode::is_file` (tui_model.rs lines 95-97). -/
def DirNode.isFile (n : DirNode) : Bool := n.nodeType == NodeType.file

/-- `Path::parent` in the component-list model: `none` for the root `[]`,
else the path without its last component. -/
def parentPath (p : TPath) : Option TPath := if p = [] then none else some p.dropLast

/-- `Path::file_name(...).unwrap_or("")` in the component-list model. -/
def fileNameOf (p : TPath) : String := p.getLast?.getD ""

/-- `DirNode::new_file` (tui_model.rs lines 32-45). -/
def newFile (path : TPath) (size : Nat) : DirNode :=
  .mk (fileNameOf path) path .file size []

/-- `DirNode::new_directory` (tui_model.rs lines 48-61). -/
def newDirectory (path : TPath) : DirNode :=
  .mk (fileNameOf path) path .directory 0 []

/-- `DirNode::remove_child_at` (tui_model.rs lines 75-82): an out-of-range
index returns `None` and changes nothing; otherwise the child is removed and
its size subtracted (saturating) from the directory's size.  The Rust
`&mut self` is modelled by returning the removed child together with the
updated node. -/
def removeChildAt (n : DirNode) (index : Nat) : Option DirNode × DirNode :=
  match n with
  | .mk nm fp ty sz cs =>
      if h : index < cs.length then
        let child := cs.get ⟨index, h⟩
        (some child, .mk nm fp ty (satSub sz child.size) (cs.eraseIdx index))
      else (none, .mk nm fp ty sz cs)

/-- The comparator `|a, b| b.size.cmp(&a.size)` of `DirNode::sort_children`
(tui_model.rs line 86), as the relation "`a` sorts no later than `b`":
size descending. -/
def childOrder (a b : DirNode) : Prop := b.size ≤ a.size

instance : DecidableRel childOrder := fun a b => Nat.decLe b.size a.size

/-- `DirNode::sort_children` (tui_model.rs lines 85-87). -/
def sortChildren (n : DirNode) : DirNode :=
  match n with
  | .mk nm fp ty sz cs => .mk nm fp ty sz (List.insertionSort childOrder cs)

mutual

/-- `sort_tree_by_size` (tui_model.rs lines 186-193): sorts every level's
children by size descending, recursing into directory children.  (The
source sorts a node's children before recursing into them; since the stable
sort permutes children based only on their sizes and the recursion preserves
every child's size, recursing first and then sorting — as written here for
structural recursion — produces the same tree.) -/
def sortTreeBySize : DirNode → DirNode
  | .mk nm fp ty sz cs =>
      .mk nm fp ty sz (List.insertionSort childOrder (sortTreeList cs))

/-- The recursion of `sort_tree_by_size` over a child list: directory
children are sorted recursively, file children are left alone. -/
def sortTreeList : List DirNode → List DirNode
  | [] => []
  | c :: cs => (if c.isDirectory then sortTreeBySize c else c) :: sortTreeList cs

end

mutual

/-- `recompute_aggregated_sizes` (tui_model.rs lines 203-214): for a
directory, recompute all children and overwrite the node's size with the
saturating sum of the children's (recomputed) sizes; a file keeps its size.
The Rust function's return value is the resulting node's `size` field. -/
def recomputeAggregatedSizes : DirNode → DirNode
  | .mk nm fp ty sz cs =>
      match ty with
      | .directory =>
          let cs2 := recomputeList cs
          .mk nm fp ty (cs2.foldl (fun total c => satAdd total c.size) 0) cs2
      | .file => .mk nm fp ty sz cs

/-- The recursion of `recompute_aggregated_sizes` over a child list. -/
def recomputeList : List DirNode → List DirNode
  | [] => []
  | c :: cs => recomputeAggregatedSizes c :: recomputeList cs

end

mutual

/-- `find_node` (tui_model.rs lines 217-233): the first node (depth-first,
node before children, children in order) whose `full_path` equals `target`;
the search does not descend into file nodes. -/
def findNode : DirNode → TPath → Option DirNode
  | .mk nm fp ty sz cs, target =>
      if fp = target then some (.mk nm fp ty sz cs)
      else
        match ty with
        | .directory => findList cs target
        | .file => none

/-- The recursion of `find_node` over a child list. -/
def findList : List DirNode → TPath → Option DirNode
  | [], _ => none
  | c :: cs, target =>
      match findNode c target with
      | some d => some d
      | none => findList cs target

end

mutual

/-- The TUI deletion step `find_node_mut(root, target)` followed by
`remove_child_at(found, index)` (tui_model.rs lines 236-252 and 75-82),
written as a tree rewrite: the first node found by the `find_node_mut`
traversal has `remove_child_at index` applied to it; when no node matches,
the tree is unchanged. -/
def removeAtPath : DirNode → TPath → Nat → DirNode
  | .mk nm fp ty sz cs, target, index =>
      if fp = target then (removeChildAt (.mk nm fp ty sz cs) index).2
      else
        match ty with
        | .directory => .mk nm fp ty sz (removeAtPathList cs target index)
        | .file => .mk nm fp ty sz cs

/-- The recursion of `removeAtPath` over a child list: the rewrite descends
into the first child whose subtree contains the target (the child
`find_node_mut` would return from). -/
def removeAtPathList : List DirNode → TPath → Nat → List DirNode
  | [], _, _ => []
  | c :: cs, target, index =>
      if (findNode c target).isSome then removeAtPath c target index :: cs
      else c :: removeAtPathList cs target index

end

/-- The mutation `existing.size = existing.size.saturating_add(size)`
(tui_model.rs line 170) and the root update at line 131. -/
def bumpSize (n : DirNode) (s : Nat) : DirNode :=
  match n with
  | .mk nm fp ty sz cs => .mk nm fp ty (satAdd sz s) cs

/-- Lines 173-174 of tui_model.rs: a missing directory child is created with
initial size equal to the inserted file's size. -/
def newDirWithSize (q : TPath) (s : Nat) : DirNode :=
  .mk (fileNameOf q) q .directory s []

/-- Line 182 of tui_model.rs: the file leaf is appended to the final
directory's children. -/
def appendFileChild (n : DirNode) (p : TPath) (s : Nat) : DirNode :=
  match n with
  | .mk nm fp ty sz cs => .mk nm fp ty sz (cs ++ [newFile p s])

/-- One level of the descend-or-create loop of `insert_file_into_tree`
(tui_model.rs lines 159-179): the first child that is a directory with path
`q` is bumped by `s` and receives the rest of the insertion (`rec`); when no
child matches, a fresh directory of size `s` is appended and receives the
rest of the insertion. -/
def insertStep (rec : DirNode → DirNode) (q : TPath) (s : Nat) :
    List DirNode → List DirNode
  | [] => [rec (newDirWithSize q s)]
  | c :: cs =>
      if c.isDirectory = true ∧ c.fullPath = q then rec (bumpSize c s) :: cs
      else c :: insertStep rec q s cs

/-- The walk of `insert_file_into_tree` along the ancestor list (tui_model.rs
lines 159-182): descend/create each directory of `chain` in turn, then append
the file leaf to the node reached. -/
def insertChain (p : TPath) (s : Nat) : List TPath → DirNode → DirNode
  | [], n => appendFileChild n p s
  | q :: rest, n =>
      match n with
      | .mk nm fp ty sz cs => .mk nm fp ty sz (insertStep (insertChain p s rest) q s cs)

/-- The ancestor-collecting loop of `insert_file_into_tree` (tui_model.rs
lines 143-155), with the current directory carried in reversed component
order so that `parent` (= `dropLast`) becomes the structural `tail`: stop
keeping `acc` on reaching `root_path`, clear everything on leaving
`root_path`, else push the directory and step to its parent.  The `[]` case
inlines the loop body for the root directory `[]` (whose parent is `None`):
it equals `root_path` only when `root_path = []`, and otherwise fails the
prefix test, clearing the list. -/
def ancestorLoopRev (rootPath : TPath) : List String → List TPath → List TPath
  | [], acc => if rootPath = [] then acc else []
  | x :: revRest, acc =>
      let dir := (x :: revRest).reverse
      if dir = rootPath then acc
      else if ¬ (rootPath <+: dir) then []
      else ancestorLoopRev rootPath revRest (acc ++ [dir])

/-- The `ancestors` list of `insert_file_into_tree` for a file whose parent
directory is `d0`: the loop result, reversed (tui_model.rs line 156). -/
def ancestorsOf (rootPath : TPath) (d0 : TPath) : List TPath :=
  (ancestorLoopRev rootPath d0.reverse []).reverse

/-- `insert_file_into_tree` (tui_model.rs lines 129-183): add the file's
size to the root (saturating); a file with no parent is attached to the root
directly; otherwise the ancestor directories below `root_path` are collected
and the chain walk inserts the file. -/
def insertFileIntoTree (root : DirNode) (rootPath filePath : TPath) (size : Nat) :
    DirNode :=
  let root1 := bumpSize root size
  match parentPath filePath with
  | none => appendFileChild root1 filePath size
  | some d0 => insertChain filePath size (ancestorsOf rootPath d0) root1

/-- `surf_core::FileEntry` as consumed by `build_tree`
(surf-cli/src/tui_model.rs line 116): path and size. -/
structure TEntry where
  path : TPath
  size : Nat
deriving DecidableEq

/-- `build_tree` (tui_model.rs lines 116-126): fold all entries into a fresh
root directory, then sort every level by size descending. -/
def build_tree (rootPath : TPath) (entries : List TEntry) : DirNode :=
  sortTreeBySize
    (entries.foldl (fun t e => insertFileIntoTree t rootPath e.path e.size)
      (newDirectory rootPath))

mutual

/-- All nodes of a tree (the node itself and its strict descendants). -/
def allNodes : DirNode → List DirNode
  | .mk nm fp ty sz cs => .mk nm fp ty sz cs :: allNodesList cs

/-- All nodes of a forest. -/
def allNodesList : List DirNode → List DirNode
  | [] => []
  | c :: cs => allNodes c ++ allNodesList cs

end

mutual

/-- Specification function: the total size of the file leaves of a subtree
(for a file node, its own size; for a directory, the sum over its forest). -/
def fileSum : DirNode → Nat
  | .mk _ _ ty sz cs =>
      match ty with
      | .file => sz
      | .directory => fileSumList cs

/-- Total size of the file leaves of a forest. -/
def fileSumList : List DirNode → Nat
  | [] => 0
  | c :: cs => fileSum c + fileSumList cs

end

/-- Specification: the sum of the entry sizes of a list. -/
def sumSizes (es : List TEntry) : Nat := (es.map TEntry.size).sum

/-- Specification: entry path `p` is rooted at (strictly below) directory
path `q`. -/
def rootedAt (q p : TPath) : Prop := q <+: p ∧ q.length < p.length

instance (q p : TPath) : Decidable (rootedAt q p) := by
  unfold rootedAt; infer_instance

/-- Specification: total size of the entries of `es` rooted at `q`. -/
def sumRooted (q : TPath) (es : List TEntry) : Nat :=
  sumSizes (es.filter (fun e => decide (rootedAt q e.path)))

mutual

/-- Structural invariant of trees produced by `insert_file_into_tree`: every
directory child's path extends its parent's path by exactly one component,
the directory children of one node have pairwise distinct paths, file nodes
are leaves, and the same holds recursively. -/
def goodTree : DirNode → Prop
  | .mk _ fp ty _ cs =>
      (∀ c ∈ cs, c.isDirectory = true → (c.fullPath.dropLast = fp ∧ c.fullPath ≠ []))
    ∧ ((cs.filter (fun c => c.isDirectory)).map DirNode.fullPath).Nodup
    ∧ (ty = NodeType.file → cs = [])
    ∧ goodList cs

/-- `goodTree` for every tree of a forest. -/
def goodList : List DirNode → Prop
  | [] => True
  | c :: cs => goodTree c ∧ goodList cs

end

/-- Specification: the strict directory descendants of `t` all carry the sum
of the entries rooted at their path. -/
def dirSizesOk (t : DirNode) (es : List TEntry) : Prop :=
  ∀ d ∈ allNodesList t.children, d.isDirectory = true → d.size = sumRooted d.fullPath es

/-- Specification: some strict descendant of `t` is a directory at path `q`. -/
def hasDirAt (t : DirNode) (q : TPath) : Prop :=
  ∃ d ∈ allNodesList t.children, d.isDirectory = true ∧ d.fullPath = q

mutual

/-- Specification predicate: every file node of the tree is a leaf (true of
every tree the TUI pipeline produces: `build_tree` creates files with no
children and no operation ever adds children to a file). -/
def leafFiles : DirNode → Bool
  | .mk _ _ ty _ cs => (ty != NodeType.file || cs.isEmpty) && leafFilesList cs

/-- `leafFiles` over a forest. -/
def leafFilesList : List DirNode → Bool
  | [] => true
  | c :: cs => leafFiles c && leafFilesList cs

end

/-- The canonical ancestor chain between `r` and a file path `p` strictly
below it: the prefixes of `p` of lengths `r.length + 1, …, p.length - 1`. -/
def chainOf (r p : TPath) : List TPath :=
  (List.range' (r.length + 1) (p.length - 1 - r.length)).map (fun k => p.take k)

end Tree

end Surf
namespace Surf

namespace Fixtures

/-- A dispatcher environment with an empty task table. -/
def env0 : Service.RpcEnv := ⟨[], 100, 4, "1", true, ""⟩

/-- A task snapshot in `Running` state with an attached handle. -/
def runningTask : Service.TaskInfo :=
  { path := "/tmp/scan-a"
    minSizeBytes := 0
    threads := 2
    limit := some 20
    tag := none
    startedAt := 50
    updatedAt := 60
    state := .running
    scanHandle := some ⟨false, ⟨3, 300, none⟩, none⟩ }

/-- A task snapshot already in `Canceled` state. -/
def canceledTask : Service.TaskInfo :=
  { path := "/tmp/scan-b"
    minSizeBytes := 0
    threads := 1
    limit := none
    tag := none
    startedAt := 40
    updatedAt := 45
    state := .canceled
    scanHandle := none }

/-- A task snapshot in `Completed` state. -/
def completedTask : Service.TaskInfo :=
  { path := "/tmp/scan-c"
    minSizeBytes := 0
    threads := 1
    limit := none
    tag := some "done"
    startedAt := 10
    updatedAt := 20
    state := .completed
    scanHandle := none }

/-- A task table holding the three tasks above. -/
def store3 : Service.TaskStore :=
  [("1", runningTask), ("2", canceledTask), ("3", completedTask)]

/-- A dispatcher environment over `store3`. -/
def env3 : Service.RpcEnv := ⟨store3, 100, 4, "4", true, ""⟩

/-- `Surf.Scan` parameters with `threads = 0`. -/
def zeroThreadParams : Service.SurfScanParams :=
  ⟨"/tmp", none, some 0, none, none, none⟩

/-- A one-child directory node. -/
def n9 : Tree.DirNode :=
  .mk "d" ["d"] .directory 7 [.mk "f" ["d", "f"] .file 7 []]

/-- The scan root of the spec's tree scenarios. -/
def r0 : Tree.TPath := ["root"]

/-- The entry list of the spec's tree scenarios 4 and 5:
`/root/a.bin` (10), `/root/sub1/b.bin` (20), `/root/sub1/deep/c.bin` (30). -/
def es0 : List Tree.TEntry :=
  [⟨["root", "a.bin"], 10⟩, ⟨["root", "sub1", "b.bin"], 20⟩,
   ⟨["root", "sub1", "deep", "c.bin"], 30⟩]

/-- The tree of scenario 4. -/
def t0 : Tree.DirNode := Tree.build_tree r0 es0

/-- Scenario 5: `/root/sub1/b.bin` removed (it sits at index 1 of `sub1`'s
size-sorted children, after `deep` of size 30), then sizes recomputed. -/
def t1 : Tree.DirNode :=
  Tree.recomputeAggregatedSizes (Tree.removeAtPath t0 ["root", "sub1"] 1)

/-- Files offered to the top-list aggregator in the C4 witness. -/
def files4 : List TopList.RawFile :=
  [⟨chars "/r/a", 5, none, none⟩, ⟨chars "/r/b", 9, none, some (chars "b")⟩,
   ⟨chars "/r/c", 0, none, none⟩, ⟨chars "/r/d", 7, some 11, none⟩]

/-- A single-entry heap at capacity 1 for the C4 eviction witness. -/
def heapEntry4 : TopList.FileEntry := ⟨chars "/r/a", 5, none, none⟩

end Fixtures

end Surf
namespace Surf

namespace Service

/-- A well-formed JSON-RPC 2.0 request object for method `m`, with optional
`params` and `id` members. -/
def mkRequest (m : String) (params : Option Json) (idv : Option Json) : Json :=
  .obj ([("jsonrpc", .str "2.0"), ("method", .str m)]
    ++ (match params with | some p => [("params", p)] | none => [])
    ++ (match idv with | some i => [("id", i)] | none => []))

/-- A well-formed `Surf.GetResults` request with the given `task_id`,
optional `mode`, optional `limit`, and optional `id`. -/
def mkGetResultsRequest (tid : String) (mode : Option String) (lim : Option Nat)
    (idv : Option Json) : Json :=
  .obj ([("jsonrpc", .str "2.0"), ("method", .str "Surf.GetResults"),
         ("params", .obj ([("task_id", .str tid)]
           ++ (match mode with | some mo => [("mode", .str mo)] | none => [])
           ++ (match lim with | some n => [("limit", .num (n : Int))] | none => [])))]
        ++ (match idv with | some i => [("id", i)] | none => []))

/-- The `mode` values `Surf.GetResults` accepts: absent, or lowercasing to
`"flat"` or `"summary"`. -/
def modeSupported : Option String → Prop
  | none => True
  | some mo => lowerAscii mo = "flat" ∨ lowerAscii mo = "summary"

end Service

end Surf
namespace Surf

theorem satAdd_eq_add {a b : Nat} (h : a + b ≤ U64MAX) : satAdd a b = a + b := by
  simp [satAdd, Nat.min_eq_left h]

/-- Claim C2 (counterexample): no single size-codec `parse` satisfies all of
the claimed equations — the CLI `parse_size` rejects `"2.5MB"` (the claim
requires 2621440), and the service-api `parse_size_string` rejects `""`
(the claim requires 0). -/
theorem claim_C2_counterexample :
    (SizeCodec.parse_size (chars "2.5MB")).toOption = none
  ∧ (SizeCodec.parse_size_string (chars "")).toOption = none
  ∧ ¬((SizeCodec.parse_size (chars "2.5MB")).toOption = some 2621440
      ∧ (SizeCodec.parse_size_string (chars "")).toOption = some 0) := by
  refine ⟨by decide, by decide, ?_⟩
  intro hcl
  have h1 := hcl.1
  rw [show (SizeCodec.parse_size (chars "2.5MB")).toOption = none from by decide] at h1
  exact Option.noConfusion h1

/-- Claim C2 (amended): the two size codecs split the claimed behavior.  The
CLI `parse_size` has a digits-only numeric prefix (no `'.'`), maps empty
input to 0 and unknown units to errors: `parse("0") = 0`, `parse("") = 0`,
`parse("1KB") = 1024`, and `parse("10XB")`, `parse("abc")` and — because of
the missing fractional support — `parse("2.5MB")` all fail.  The service-api
`parse_size_string` accepts digits with an optional single `'.'`, giving
`parse("2.5MB") = 2621440`, `parse("0") = 0`, `parse("1KB") = 1024`, and
failing on `"10XB"` and `"abc"`, but it rejects empty input instead of
returning 0. -/
theorem claim_C2 :
    ((SizeCodec.parse_size (chars "0")).toOption = some 0
      ∧ (SizeCodec.parse_size (chars "")).toOption = some 0
      ∧ (SizeCodec.parse_size (chars "1KB")).toOption = some 1024
      ∧ (SizeCodec.parse_size (chars "2.5MB")).toOption = none
      ∧ (SizeCodec.parse_size (chars "10XB")).toOption = none
      ∧ (SizeCodec.parse_size (chars "abc")).toOption = none)
  ∧ (∀ input : List Char, trimChars input = [] → SizeCodec.parse_size input = .ok 0)
  ∧ ((SizeCodec.parse_size_string (chars "0")).toOption = some 0
      ∧ (SizeCodec.parse_size_string (chars "1KB")).toOption = some 1024
      ∧ (SizeCodec.parse_size_string (chars "2.5MB")).toOption = some 2621440
      ∧ (SizeCodec.parse_size_string (chars "10XB")).toOption = none
      ∧ (SizeCodec.parse_size_string (chars "abc")).toOption = none)
  ∧ (∀ input : List Char, trimChars input = [] →
      SizeCodec.parse_size_string input = .error "min_size cannot be empty") := by
  refine ⟨by decide, ?_, by decide, ?_⟩
  · intro input h
    unfold SizeCodec.parse_size
    simp [h]
  · intro input h
    unfold SizeCodec.parse_size_string
    simp [h]

/-- Witness for claim C2: the universally quantified conjuncts applied to
whitespace-only inputs. -/
theorem claim_C2_witness :
    trimChars (chars "   ") = []
  ∧ SizeCodec.parse_size (chars "   ") = .ok 0
  ∧ SizeCodec.parse_size_string (chars " ") = .error "min_size cannot be empty" :=
  ⟨by decide, claim_C2.2.1 (chars "   ") (by decide),
    claim_C2.2.2.2 (chars " ") (by decide)⟩

/-- Claim C1 (counterexample): a request line that is not valid JSON is
answered with code -32600 (`INVALID_REQUEST`), not -32700 as claimed. -/
theorem claim_C1_counterexample :
    Service.handleRpcLine Fixtures.env0 (.badJson "expected value") =
      some (.err ⟨-32600, "INVALID_REQUEST", some "JSON parse error: expected value"⟩ .null)
  ∧ ((-32600 : Int) = -32700 → False) := ⟨rfl, by decide⟩

/-- Claim C1 (amended): for every incoming request line that is not valid
JSON, the dispatcher emits an error response with code -32600
(`INVALID_REQUEST`, carrying the parse error as detail) and `id = null`;
the code base has no -32700 error path. -/
theorem claim_C1 (env : Service.RpcEnv) (e : String) :
    Service.handleRpcLine env (.badJson e) =
      some (.err (Service.invalidRequest (some ("JSON parse error: " ++ e))) .null)
  ∧ (Service.invalidRequest (some ("JSON parse error: " ++ e))).code = -32600 :=
  ⟨rfl, rfl⟩

/-- Claim C10: a `Surf.Scan` or `Surf.Cancel` request whose `params` member
is absent or `null` is answered with `METHOD_NOT_FOUND` (-32601, detail
"method not implemented yet") rather than an invalid-params error, even
though the method is in the supported set. -/
theorem claim_C10 (env : Service.RpcEnv) (m : String) (params : Option Json)
    (idv : Option Json) (hm : m = "Surf.Scan" ∨ m = "Surf.Cancel")
    (hp : params = none ∨ params = some Json.null) :
    Service.handleRpcLine env (.json (Service.mkRequest m params idv)) =
      some (.err (Service.methodNotFound (some "method not implemented yet"))
        (idv.getD Json.null))
  ∧ (Service.methodNotFound (some "method not implemented yet")).code = -32601 := by
  rcases hm with rfl | rfl <;> rcases hp with rfl | rfl <;> cases idv <;>
    exact ⟨rfl, rfl⟩

/-- Witness for claim C10: `Surf.Scan` with `params` absent. -/
theorem claim_C10_witness :
    Service.handleRpcLine Fixtures.env0 (.json (Service.mkRequest "Surf.Scan" none none)) =
      some (.err (Service.methodNotFound (some "method not implemented yet")) Json.null)
  ∧ (Service.methodNotFound (some "method not implemented yet")).code = -32601 :=
  claim_C10 Fixtures.env0 "Surf.Scan" none none (Or.inl rfl) (Or.inl rfl)

/-- Claim C7: `cancel_task` is idempotent.  For every registered task, a
`Queued` or `Running` state transitions to `Canceled` with the engine cancel
invoked exactly when a handle exists; a terminal state is left unchanged
(previous equals current) without error; `updated_at` is set to `now` in
both cases. -/
theorem claim_C7 (store : Service.TaskStore) (taskId : String) (now : Nat)
    (info : Service.TaskInfo) (h : store.lookup taskId = some info) :
    ((info.state = .queued ∨ info.state = .running) →
        (Service.cancelTask store taskId now).result =
          some (info.state, { info with state := .canceled, updatedAt := now })
      ∧ (Service.cancelTask store taskId now).engineCancelInvoked =
          info.scanHandle.isSome)
  ∧ ((info.state = .completed ∨ info.state = .failed ∨ info.state = .canceled) →
        (Service.cancelTask store taskId now).result =
          some (info.state, { info with updatedAt := now })
      ∧ (Service.cancelTask store taskId now).engineCancelInvoked = false) := by
  unfold Service.cancelTask
  rw [h]
  obtain ⟨path, minSizeBytes, threads, limit, tag, startedAt, updatedAt, state, scanHandle⟩ := info
  cases state <;>
    simp

/-- Witness for claim C7: cancel of the running task `"1"` and of the
already-canceled task `"2"` in the three-task store. -/
theorem claim_C7_witness :
    ((Service.cancelTask Fixtures.store3 "1" 100).result =
        some (.running, { Fixtures.runningTask with state := .canceled, updatedAt := 100 })
      ∧ (Service.cancelTask Fixtures.store3 "1" 100).engineCancelInvoked =
          Fixtures.runningTask.scanHandle.isSome)
  ∧ ((Service.cancelTask Fixtures.store3 "2" 100).result =
        some (.canceled, { Fixtures.canceledTask with updatedAt := 100 })
      ∧ (Service.cancelTask Fixtures.store3 "2" 100).engineCancelInvoked = false) :=
  ⟨(claim_C7 Fixtures.store3 "1" 100 Fixtures.runningTask (by decide)).1 (Or.inr rfl),
    (claim_C7 Fixtures.store3 "2" 100 Fixtures.canceledTask (by decide)).2
      (Or.inr (Or.inr rfl))⟩

/-- Claim C8: the engine coerces `threads = 0` to one worker
(`threads.max(1)`) and a scan with `threads = 0` returns results identical
to one with `threads = 1`; the RPC validation rejects `threads = 0` with
-32602 (when `min_size`, checked first, is absent or valid). -/
theorem claim_C8 :
    (∀ (rootExists poolBuildOk : Bool) (walk : List Engine.WalkEntry) (minSize : Nat),
        Engine.scan rootExists poolBuildOk walk minSize 0 =
          Engine.scan rootExists poolBuildOk walk minSize 1)
  ∧ Engine.effectiveThreads 0 = 1
  ∧ (∀ p : Service.SurfScanParams, p.threads = some 0 →
      (p.min_size = none ∨ ∃ s bytes, p.min_size = some s
        ∧ SizeCodec.parse_size_for_service (chars s) = .ok bytes) →
      Service.validateSurfScanParams p =
        .error (Service.invalidParams (some "invalid threads: must be >= 1")))
  ∧ (Service.invalidParams (some "invalid threads: must be >= 1")).code = -32602 := by
  refine ⟨fun _ _ _ _ => rfl, rfl, ?_, rfl⟩
  intro p hthreads hmin
  unfold Service.validateSurfScanParams
  rcases hmin with hnone | ⟨s, bytes, hsome, hok⟩
  · simp [hnone, hthreads]
  · simp [hsome, hok, hthreads]

/-- Witness for claim C8: validation of the concrete `threads = 0`
parameters. -/
theorem claim_C8_witness :
    Service.validateSurfScanParams Fixtures.zeroThreadParams =
      .error (Service.invalidParams (some "invalid threads: must be >= 1")) :=
  claim_C8.2.2.1 Fixtures.zeroThreadParams rfl (Or.inl rfl)

/-- Claim C9: `remove_child_at` with an out-of-range index returns `None`
and leaves the node entirely unchanged (children and size untouched). -/
theorem claim_C9 (n : Tree.DirNode) (i : Nat) (h : n.children.length ≤ i) :
    Tree.removeChildAt n i = (none, n) := by
  obtain ⟨nm, fp, ty, sz, cs⟩ := n
  have hlt : ¬ i < cs.length := by
    simp only [Tree.DirNode.children] at h
    omega
  simp [Tree.removeChildAt, hlt]

/-- Witness for claim C9: index 5 on a one-child node. -/
theorem claim_C9_witness :
    Fixtures.n9.children.length ≤ 5 ∧ Tree.removeChildAt Fixtures.n9 5 = (none, Fixtures.n9) :=
  ⟨by decide, claim_C9 Fixtures.n9 5 (by decide)⟩

end Surf
namespace Surf

theorem getResults_reduce (env : Service.RpcEnv) (tid : String) (mode : Option String)
    (lim : Option Nat) (idv : Option Json) :
    Service.handleRpcLine env (.json (Service.mkGetResultsRequest tid mode lim idv)) =
      (let rid := idv.getD Json.null
       let modeBadB : Bool :=
         match mode with
         | some mo => !(decide (lowerAscii mo = "flat") || decide (lowerAscii mo = "summary"))
         | none => false
       if modeBadB then
         some (.err (Service.invalidParams (some "unsupported mode for Surf.GetResults")) rid)
       else
         match Service.getTaskInfo env.store tid with
         | none => some (.err (Service.taskNotFound (some ("task_id not found: " ++ tid))) rid)
         | some info =>
             if info.state ≠ Service.TaskState.completed then
               some (.err (Service.invalidParams
                 (some ("task is not in completed state (current: "
                   ++ info.state.toStr ++ ")"))) rid)
             else some (.ok (.results ⟨tid, "completed", info.path, 0, 0, []⟩) rid)) := by
  have hn : ∀ n : Nat, ¬ ((n : Int) < 0) := fun n => by omega
  cases mode <;> cases lim <;> cases idv <;>
    simp [Service.handleRpcLine, Service.mkGetResultsRequest, Service.decodeRequest,
      Service.jGet, Service.objFields, Service.isNullJ, Service.isObjJ,
      Service.decodeSurfGetResultsParams, Service.decodeOptString, Service.decodeOptNat,
      Service.getTaskInfo, List.lookup, hn]

end Surf
namespace Surf

/-- Claim C3: for every `Surf.GetResults` request — an unsupported `mode`
yields -32602; an unknown `task_id` yields -32001; a task not in `Completed`
state yields -32602 with detail naming the current state; and for a
`Completed` task the call succeeds with
`{task_id, state: "completed", path, total_files, total_bytes, entries}`. -/
theorem claim_C3 (env : Service.RpcEnv) (tid : String) (lim : Option Nat)
    (idv : Option Json) :
    (∀ mo : String, lowerAscii mo ≠ "flat" → lowerAscii mo ≠ "summary" →
       Service.handleRpcLine env (.json (Service.mkGetResultsRequest tid (some mo) lim idv)) =
         some (.err (Service.invalidParams (some "unsupported mode for Surf.GetResults"))
           (idv.getD .null))
       ∧ (Service.invalidParams (some "unsupported mode for Surf.GetResults")).code = -32602)
  ∧ (∀ mode : Option String, Service.modeSupported mode →
       Service.getTaskInfo env.store tid = none →
       Service.handleRpcLine env (.json (Service.mkGetResultsRequest tid mode lim idv)) =
         some (.err (Service.taskNotFound (some ("task_id not found: " ++ tid)))
           (idv.getD .null))
       ∧ (Service.taskNotFound (some ("task_id not found: " ++ tid))).code = -32001)
  ∧ (∀ (mode : Option String) (info : Service.TaskInfo), Service.modeSupported mode →
       Service.getTaskInfo env.store tid = some info →
       info.state ≠ .completed →
       Service.handleRpcLine env (.json (Service.mkGetResultsRequest tid mode lim idv)) =
         some (.err (Service.invalidParams
             (some ("task is not in completed state (current: " ++ info.state.toStr ++ ")")))
           (idv.getD .null)))
  ∧ (∀ (mode : Option String) (info : Service.TaskInfo), Service.modeSupported mode →
       Service.getTaskInfo env.store tid = some info →
       info.state = .completed →
       Service.handleRpcLine env (.json (Service.mkGetResultsRequest tid mode lim idv)) =
         some (.ok (.results ⟨tid, "completed", info.path, 0, 0, []⟩) (idv.getD .null))) := by
  refine ⟨?_, ?_, ?_, ?_⟩
  · intro mo h1 h2
    refine ⟨?_, rfl⟩
    rw [getResults_reduce]
    simp [h1, h2]
  · intro mode hmode hnone
    refine ⟨?_, rfl⟩
    rw [getResults_reduce]
    cases mode with
    | none => simp [hnone]
    | some mo =>
        rcases hmode with h | h <;> simp [h, hnone]
  · intro mode info hmode hsome hne
    rw [getResults_reduce]
    cases mode with
    | none => simp [hsome, hne]
    | some mo =>
        rcases hmode with h | h <;> simp [h, hsome, hne]
  · intro mode info hmode hsome hstate
    rw [getResults_reduce]
    cases mode with
    | none => simp [hsome, hstate]
    | some mo =>
        rcases hmode with h | h <;> simp [h, hsome, hstate]

/-- Witness for claim C3: the three-task store — an unsupported mode, an
unknown task, and the completed task `"3"`. -/
theorem claim_C3_witness :
    (Service.handleRpcLine Fixtures.env3
        (.json (Service.mkGetResultsRequest "3" (some "weird") none none)) =
      some (.err (Service.invalidParams (some "unsupported mode for Surf.GetResults"))
        Json.null))
  ∧ (Service.handleRpcLine Fixtures.env3
        (.json (Service.mkGetResultsRequest "nope" none none none)) =
      some (.err (Service.taskNotFound (some "task_id not found: nope")) Json.null))
  ∧ (Service.handleRpcLine Fixtures.env3
        (.json (Service.mkGetResultsRequest "3" none none none)) =
      some (.ok (.results ⟨"3", "completed", Fixtures.completedTask.path, 0, 0, []⟩)
        Json.null)) :=
  ⟨((claim_C3 Fixtures.env3 "3" none none).1 "weird" (by decide) (by decide)).1,
    ((claim_C3 Fixtures.env3 "nope" none none).2.1 none trivial (by decide)).1,
    (claim_C3 Fixtures.env3 "3" none none).2.2.2 none Fixtures.completedTask trivial
      (by decide) rfl⟩

end Surf
namespace Surf

theorem char_eq_of_toNat_eq {a b : Char} (h : a.toNat = b.toNat) : a = b := by
  have h1 : Char.ofNat a.toNat = Char.ofNat b.toNat := by rw [h]
  rwa [Char.ofNat_toNat, Char.ofNat_toNat] at h1

theorem charListLt_trans :
    ∀ (a b c : List Char), charListLt a b = true → charListLt b c = true →
      charListLt a c = true := by
  intro a
  induction a with
  | nil =>
      intro b c hab hbc
      cases b with
      | nil => simp [charListLt] at hab
      | cons y ys =>
          cases c with
          | nil => simp [charListLt] at hbc
          | cons z zs => simp [charListLt]
  | cons x xs ih =>
      intro b c hab hbc
      cases b with
      | nil => simp [charListLt] at hab
      | cons y ys =>
          cases c with
          | nil => simp [charListLt] at hbc
          | cons z zs =>
              simp only [charListLt] at hab hbc ⊢
              rcases Nat.lt_trichotomy x.toNat y.toNat with h1 | h1 | h1
              · rcases Nat.lt_trichotomy y.toNat z.toNat with h2 | h2 | h2
                · simp [show x.toNat < z.toNat by omega]
                · simp [show x.toNat < z.toNat by omega]
                · rw [if_neg (by omega), if_pos (by omega)] at hbc
                  exact absurd hbc (by simp)
              · rcases Nat.lt_trichotomy y.toNat z.toNat with h2 | h2 | h2
                · simp [show x.toNat < z.toNat by omega]
                · rw [if_neg (by omega), if_neg (by omega)] at hab
                  rw [if_neg (by omega), if_neg (by omega)] at hbc
                  rw [if_neg (by omega), if_neg (by omega)]
                  exact ih ys zs hab hbc
                · rw [if_neg (by omega), if_pos (by omega)] at hbc
                  exact absurd hbc (by simp)
              · rw [if_neg (by omega), if_pos (by omega)] at hab
                exact absurd hab (by simp)

theorem charListLt_trichot :
    ∀ (a b : List Char), charListLt a b = true ∨ a = b ∨ charListLt b a = true := by
  intro a
  induction a with
  | nil =>
      intro b
      cases b with
      | nil => exact Or.inr (Or.inl rfl)
      | cons y ys => exact Or.inl (by simp [charListLt])
  | cons x xs ih =>
      intro b
      cases b with
      | nil => exact Or.inr (Or.inr (by simp [charListLt]))
      | cons y ys =>
          rcases Nat.lt_trichotomy x.toNat y.toNat with h | h | h
          · exact Or.inl (by simp [charListLt, h])
          · have hxy : x = y := char_eq_of_toNat_eq h
            rcases ih ys with h2 | h2 | h2
            · refine Or.inl ?_
              simp only [charListLt]
              rw [if_neg (by omega), if_neg (by omega)]
              exact h2
            · exact Or.inr (Or.inl (by rw [hxy, h2]))
            · refine Or.inr (Or.inr ?_)
              simp only [charListLt]
              rw [if_neg (by omega), if_neg (by omega)]
              exact h2
          · refine Or.inr (Or.inr ?_)
            simp [charListLt, h]

theorem topOrder_total (a b : TopList.FileEntry) :
    TopList.topOrder a b ∨ TopList.topOrder b a := by
  rcases Nat.lt_trichotomy a.size b.size with h | h | h
  · exact Or.inr (Or.inl h)
  · rcases charListLt_trichot b.path a.path with hp | hp | hp
    · exact Or.inl (Or.inr ⟨h.symm, Or.inr hp⟩)
    · exact Or.inl (Or.inr ⟨h.symm, Or.inl hp⟩)
    · exact Or.inr (Or.inr ⟨h, Or.inr hp⟩)
  · exact Or.inl (Or.inl h)

theorem topOrder_trans (a b c : TopList.FileEntry) :
    TopList.topOrder a b → TopList.topOrder b c → TopList.topOrder a c := by
  intro hab hbc
  rcases hab with h1 | ⟨h1, hp1⟩ <;> rcases hbc with h2 | ⟨h2, hp2⟩
  · exact Or.inl (by omega)
  · exact Or.inl (by omega)
  · exact Or.inl (by omega)
  · refine Or.inr ⟨by omega, ?_⟩
    rcases hp1 with he1 | hl1 <;> rcases hp2 with he2 | hl2
    · exact Or.inl (he2.trans he1)
    · exact Or.inr (he1 ▸ hl2)
    · exact Or.inr (he2 ▸ hl1)
    · exact Or.inr (charListLt_trans _ _ _ hl2 hl1)

theorem heapMin_mem :
    ∀ {h : List TopList.FileEntry} {m}, TopList.heapMin h = some m → m ∈ h := by
  intro h
  induction h with
  | nil => intro m hm; simp [TopList.heapMin] at hm
  | cons e es ih =>
      intro m hm
      simp only [TopList.heapMin] at hm
      cases hx : TopList.heapMin es with
      | none =>
          rw [hx] at hm
          simp at hm
          exact hm ▸ List.mem_cons_self e es
      | some m2 =>
          rw [hx] at hm
          by_cases hlt : TopList.feLt m2 e
          · simp [hlt] at hm
            exact List.mem_cons_of_mem e (hm ▸ ih hx)
          · simp [hlt] at hm
            exact hm ▸ List.mem_cons_self e es

theorem addFile_inv (limit : Nat) (h : List TopList.FileEntry) (path : List Char)
    (size : Nat) (lm : Option Nat) (ext : Option (List Char))
    (hlen : h.length ≤ limit) (hpos : ∀ e ∈ h, 0 < e.size) :
    (TopList.addFileToTopList limit h path size lm ext).length ≤ limit
  ∧ (∀ e ∈ TopList.addFileToTopList limit h path size lm ext, 0 < e.size) := by
  by_cases hz : size = 0
  · simp only [TopList.addFileToTopList, if_pos hz]
    exact ⟨hlen, hpos⟩
  · by_cases hlt : h.length < limit
    · simp only [TopList.addFileToTopList, if_neg hz, if_pos hlt]
      refine ⟨by simpa using hlt, ?_⟩
      intro e he
      rcases List.mem_cons.1 he with rfl | he2
      · exact Nat.pos_of_ne_zero hz
      · exact hpos e he2
    · cases hx : TopList.heapMin h with
      | none =>
          simp only [TopList.addFileToTopList, if_neg hz, if_neg hlt, hx]
          exact ⟨hlen, hpos⟩
      | some top =>
          by_cases hcmp : top.size < size
          · simp only [TopList.addFileToTopList, if_neg hz, if_neg hlt, hx, if_pos hcmp]
            have htop : top ∈ h := heapMin_mem hx
            have hne : h ≠ [] := by rintro rfl; simp at htop
            constructor
            · have := List.length_erase_of_mem htop
              have hpos' : 0 < h.length := List.length_pos.mpr hne
              simp only [List.length_cons, this]
              omega
            · intro e he
              rcases List.mem_cons.1 he with rfl | he2
              · exact Nat.pos_of_ne_zero hz
              · exact hpos e (List.mem_of_mem_erase he2)
          · simp only [TopList.addFileToTopList, if_neg hz, if_neg hlt, hx, if_neg hcmp]
            exact ⟨hlen, hpos⟩

theorem pushAll_inv (limit : Nat) (files : List TopList.RawFile) :
    (TopList.pushAll limit files).length ≤ limit
  ∧ (∀ e ∈ TopList.pushAll limit files, 0 < e.size) := by
  suffices hgen : ∀ (fs : List TopList.RawFile) (h : List TopList.FileEntry),
      h.length ≤ limit → (∀ e ∈ h, 0 < e.size) →
      ((fs.foldl (fun h f =>
          TopList.addFileToTopList limit h f.path f.size f.lastModified f.extension) h).length ≤ limit
        ∧ ∀ e ∈ fs.foldl (fun h f =>
            TopList.addFileToTopList limit h f.path f.size f.lastModified f.extension) h,
            0 < e.size) by
    exact hgen files [] (by simp) (by simp)
  intro fs
  induction fs with
  | nil => intro h h1 h2; exact ⟨h1, h2⟩
  | cons f fs ih =>
      intro h h1 h2
      have step := addFile_inv limit h f.path f.size f.lastModified f.extension h1 h2
      exact ih _ step.1 step.2

/-- Claim C4: the scan's `top_files` list has length at most `limit` (which
defaults to 20), it is sorted by size descending with path descending as
tiebreaker, every listed entry has positive size, and when the heap is full
an incoming entry replaces the minimum iff its size strictly exceeds the
minimum's (ties do not evict). -/
theorem claim_C4 :
    (∀ (limit : Nat) (files : List TopList.RawFile),
        (TopList.runTopList limit files).length ≤ limit
      ∧ List.Sorted TopList.topOrder (TopList.runTopList limit files)
      ∧ (∀ e ∈ TopList.runTopList limit files, 0 < e.size))
  ∧ (∀ (limit : Nat) (heap : List TopList.FileEntry) (path : List Char) (size : Nat)
        (lm : Option Nat) (ext : Option (List Char)) (top : TopList.FileEntry),
        heap.length = limit → size ≠ 0 → TopList.heapMin heap = some top →
        TopList.addFileToTopList limit heap path size lm ext =
          (if top.size < size
            then (⟨path, size, lm, ext⟩ : TopList.FileEntry) :: heap.erase top
            else heap))
  ∧ TopList.resolveLimit none = 20 := by
  refine ⟨?_, ?_, rfl⟩
  · intro limit files
    haveI : IsTotal TopList.FileEntry TopList.topOrder := ⟨topOrder_total⟩
    haveI : IsTrans TopList.FileEntry TopList.topOrder :=
      ⟨fun a b c => topOrder_trans a b c⟩
    have hperm := List.perm_insertionSort TopList.topOrder (TopList.pushAll limit files)
    have hinv := pushAll_inv limit files
    refine ⟨?_, ?_, ?_⟩
    · rw [TopList.runTopList, TopList.topFilesToVec, hperm.length_eq]
      exact hinv.1
    · exact List.sorted_insertionSort TopList.topOrder (TopList.pushAll limit files)
    · intro e he
      exact hinv.2 e (hperm.subset he)
  · intro limit heap path size lm ext top hlen hz hmin
    simp only [TopList.addFileToTopList, if_neg hz, if_neg (show ¬ heap.length < limit by omega),
      hmin]

/-- Witness for claim C4: the invariant at limit 2 over four concrete files,
and the eviction rule on a full one-entry heap. -/
theorem claim_C4_witness :
    ((TopList.runTopList 2 Fixtures.files4).length ≤ 2
      ∧ (∀ e ∈ TopList.runTopList 2 Fixtures.files4, 0 < e.size))
  ∧ TopList.addFileToTopList 1 [Fixtures.heapEntry4] (chars "/r/z") 9 none none =
      (if Fixtures.heapEntry4.size < 9
        then (⟨chars "/r/z", 9, none, none⟩ : TopList.FileEntry)
          :: [Fixtures.heapEntry4].erase Fixtures.heapEntry4
        else [Fixtures.heapEntry4]) :=
  ⟨⟨(claim_C4.1 2 Fixtures.files4).1, (claim_C4.1 2 Fixtures.files4).2.2⟩,
    claim_C4.2.1 1 [Fixtures.heapEntry4] (chars "/r/z") 9 none none Fixtures.heapEntry4
      (by decide) (by decide) (by decide)⟩

end Surf
namespace Surf

namespace Tree

theorem indOn (P : DirNode → Prop)
    (h : ∀ nm fp ty sz cs, (∀ c ∈ cs, P c) → P (.mk nm fp ty sz cs)) : ∀ t, P t := by
  intro t
  induction t using DirNode.rec (motive_2 := fun cs => ∀ c ∈ cs, P c) with
  | mk nm fp ty sz cs ih => exact h nm fp ty sz cs ih
  | nil =>
      rename_i c hc
      exact absurd hc (List.not_mem_nil c)
  | cons head tail ihh iht =>
      rename_i c hc
      rcases List.mem_cons.1 hc with h1 | h2
      · exact h1 ▸ ihh
      · exact iht c h2

theorem allNodesList_eq_flat (cs : List DirNode) :
    allNodesList cs = (cs.map allNodes).flatten := by
  induction cs with
  | nil => simp [allNodesList]
  | cons c cs ih => simp [allNodesList, ih]

theorem mem_allNodesList {d : DirNode} {cs : List DirNode} :
    d ∈ allNodesList cs ↔ ∃ c ∈ cs, d ∈ allNodes c := by
  induction cs with
  | nil => simp [allNodesList]
  | cons c cs ih =>
      simp only [allNodesList, List.mem_append, ih, List.mem_cons]
      constructor
      · rintro (h | ⟨c2, hc2, hd⟩)
        · exact ⟨c, Or.inl rfl, h⟩
        · exact ⟨c2, Or.inr hc2, hd⟩
      · rintro ⟨c2, rfl | hc2, hd⟩
        · exact Or.inl hd
        · exact Or.inr ⟨c2, hc2, hd⟩

theorem allNodesList_append (l₁ l₂ : List DirNode) :
    allNodesList (l₁ ++ l₂) = allNodesList l₁ ++ allNodesList l₂ := by
  induction l₁ with
  | nil => simp [allNodesList]
  | cons c cs ih => simp [allNodesList, ih]

theorem recomputeList_eq_map (cs : List DirNode) :
    recomputeList cs = cs.map recomputeAggregatedSizes := by
  induction cs with
  | nil => simp [recomputeList]
  | cons c cs ih => simp [recomputeList, ih]

theorem fileSumList_eq_sum (cs : List DirNode) :
    fileSumList cs = (cs.map fileSum).sum := by
  induction cs with
  | nil => simp [fileSumList]
  | cons c cs ih => simp [fileSumList, ih]

theorem fileSum_le_of_mem {c : DirNode} {cs : List DirNode} (h : c ∈ cs) :
    fileSum c ≤ fileSumList cs := by
  induction cs with
  | nil => simp at h
  | cons c2 cs ih =>
      rcases List.mem_cons.1 h with rfl | h2
      · simp [fileSumList]
      · have := ih h2
        simp only [fileSumList]
        omega

theorem satFoldl_eq_sum (cs : List DirNode) (a : Nat)
    (h : a + (cs.map DirNode.size).sum ≤ U64MAX) :
    cs.foldl (fun total c => satAdd total c.size) a = a + (cs.map DirNode.size).sum := by
  induction cs generalizing a with
  | nil => simp
  | cons c cs ih =>
      simp only [List.foldl_cons]
      rw [satAdd_eq_add (by simp at h; omega)]
      rw [ih (a + c.size) (by simp at h ⊢; omega)]
      simp
      omega

theorem fileSum_recompute : ∀ t : DirNode, fileSum (recomputeAggregatedSizes t) = fileSum t := by
  apply indOn
  intro nm fp ty sz cs ih
  cases ty with
  | file => simp [recomputeAggregatedSizes, fileSum]
  | directory =>
      simp only [recomputeAggregatedSizes, fileSum]
      rw [recomputeList_eq_map]
      induction cs with
      | nil => simp [fileSumList]
      | cons c cs ih2 =>
          simp only [List.map_cons, fileSumList]
          rw [ih c (List.mem_cons_self c cs)]
          rw [ih2 (fun c2 hc2 => ih c2 (List.mem_cons_of_mem c hc2))]

theorem leafFiles_children {nm fp ty sz cs} (h : leafFiles (.mk nm fp ty sz cs) = true) :
    (ty = NodeType.file → cs = []) ∧ ∀ c ∈ cs, leafFiles c = true := by
  simp only [leafFiles, Bool.and_eq_true] at h
  constructor
  · intro hty
    subst hty
    rcases Bool.or_eq_true _ _ |>.mp h.1 with h1 | h1
    · simp at h1
    · exact List.isEmpty_iff.mp h1
  · intro c hc
    have h2 := h.2
    induction cs with
    | nil => simp at hc
    | cons c2 cs ih =>
        simp only [leafFilesList, Bool.and_eq_true] at h2
        rcases List.mem_cons.1 hc with rfl | hc2
        · exact h2.1
        · exact ih (by simp [leafFiles, Bool.and_eq_true] at *; tauto) hc2 h2.2

end Tree

end Surf
namespace Surf

namespace Tree

theorem fileSumList_recompute (cs : List DirNode) :
    fileSumList (recomputeList cs) = fileSumList cs := by
  induction cs with
  | nil => simp [recomputeList]
  | cons c cs ih => simp [recomputeList, fileSumList, fileSum_recompute c, ih]

theorem recompute_spec : ∀ t : DirNode, leafFiles t = true → fileSum t ≤ U64MAX →
    ((t.nodeType = NodeType.directory →
        (recomputeAggregatedSizes t).size = fileSum t)
      ∧ ∀ d ∈ allNodes (recomputeAggregatedSizes t), d.isDirectory = true →
          d.size = fileSum d) := by
  apply indOn
  intro nm fp ty sz cs ih hleaf hsum
  have hlf := leafFiles_children hleaf
  cases ty with
  | file =>
      have hcs : cs = [] := hlf.1 rfl
      subst hcs
      constructor
      · intro h; simp [DirNode.nodeType] at h
      · intro d hd hdir
        simp only [recomputeAggregatedSizes, allNodes, allNodesList] at hd
        rcases List.mem_cons.1 hd with rfl | h2
        · simp [DirNode.isDirectory, DirNode.nodeType] at hdir
        · simp at h2
  | directory =>
      have hsum' : fileSum (DirNode.mk nm fp .directory sz cs) = fileSumList cs := by
        simp [fileSum]
      rw [hsum'] at hsum
      have hchild : ∀ c ∈ cs, fileSum c ≤ U64MAX := fun c hc =>
        le_trans (fileSum_le_of_mem hc) hsum
      have hsizes : ∀ c ∈ cs, (recomputeAggregatedSizes c).size = fileSum c := by
        intro c hc
        obtain ⟨nm2, fp2, ty2, sz2, cs2⟩ := c
        cases ty2 with
        | file => simp [recomputeAggregatedSizes, DirNode.size, fileSum]
        | directory =>
            exact (ih _ hc (hlf.2 _ hc) (hchild _ hc)).1 (by simp [DirNode.nodeType])
      have hmapsz : ((recomputeList cs).map DirNode.size).sum = fileSumList cs := by
        rw [fileSumList_eq_sum, recomputeList_eq_map, List.map_map]
        exact congrArg List.sum (List.map_congr_left (fun c hc => hsizes c hc))
      have hroot : ((recomputeList cs).foldl (fun total c => satAdd total c.size) 0)
          = fileSumList cs := by
        rw [satFoldl_eq_sum _ 0 (by rw [hmapsz]; omega), hmapsz]
        omega
      constructor
      · intro _
        exact hroot
      · intro d hd _
        simp only [recomputeAggregatedSizes, allNodes] at hd
        rcases List.mem_cons.1 hd with rfl | h2
        · exact hroot.trans (fileSumList_recompute cs).symm
        · rw [mem_allNodesList] at h2
          obtain ⟨c', hc', hd'⟩ := h2
          rw [recomputeList_eq_map, List.mem_map] at hc'
          obtain ⟨c, hc, rfl⟩ := hc'
          exact (ih c hc (hlf.2 c hc) (hchild c hc)).2 d hd' (by assumption)

/-- The removal step of the C6 scenario. -/
theorem c6_removed_is_b :
    ((removeChildAt ((findNode Fixtures.t0 ["root", "sub1"]).getD Fixtures.t0) 1).1.map
        DirNode.name) = some "b.bin" := by decide

end Tree

end Surf
namespace Surf

/-- Claim C6: after `remove_child_at` followed by `recompute_sizes(root)`,
every directory's size again equals the sum of the remaining file entries in
its subtree (stated for every tree whose file nodes are leaves); concretely,
for the tree built from `/root/a.bin` (10), `/root/sub1/b.bin` (20),
`/root/sub1/deep/c.bin` (30), removing `/root/sub1/b.bin` (index 1 of
`sub1`'s children) and recomputing yields root size 40, `sub1` size 30, and
`deep` size 30 unchanged. -/
theorem claim_C6 :
    (∀ t : Tree.DirNode, Tree.leafFiles t = true → Tree.fileSum t ≤ U64MAX →
       ∀ d ∈ Tree.allNodes (Tree.recomputeAggregatedSizes t), d.isDirectory = true →
         d.size = Tree.fileSum d)
  ∧ Fixtures.t1.size = 40
  ∧ ((Tree.findNode Fixtures.t1 ["root", "sub1"]).map Tree.DirNode.size = some 30)
  ∧ ((Tree.findNode Fixtures.t1 ["root", "sub1", "deep"]).map Tree.DirNode.size = some 30)
  ∧ ((Tree.removeChildAt ((Tree.findNode Fixtures.t0 ["root", "sub1"]).getD Fixtures.t0) 1).1.map
      Tree.DirNode.name = some "b.bin") := by
  refine ⟨?_, by decide, by decide, by decide, by decide⟩
  intro t hleaf hsum
  exact (Tree.recompute_spec t hleaf hsum).2

/-- Witness for claim C6: the universally quantified conjunct applied to the
scenario tree after the removal. -/
theorem claim_C6_witness :
    Tree.leafFiles (Tree.removeAtPath Fixtures.t0 ["root", "sub1"] 1) = true
  ∧ Tree.fileSum (Tree.removeAtPath Fixtures.t0 ["root", "sub1"] 1) ≤ U64MAX
  ∧ ∀ d ∈ Tree.allNodes Fixtures.t1, d.isDirectory = true → d.size = Tree.fileSum d :=
  ⟨by decide, by decide, claim_C6.1 _ (by decide) (by decide)⟩

end Surf
namespace Surf

namespace Tree

theorem prefix_take_of_prefix {r d : TPath} (h : r <+: d) {k : Nat}
    (hk : r.length ≤ k) : r <+: d.take k := by
  rw [List.prefix_iff_eq_take, List.take_take, Nat.min_eq_left hk]
  exact List.prefix_iff_eq_take.1 h

theorem take_dropLast_eq {l : TPath} {k : Nat} (hk : k ≤ l.length - 1) :
    l.dropLast.take k = l.take k := by
  rw [List.dropLast_eq_take, List.take_take, Nat.min_eq_left hk]

theorem ancLoop_not_prefix (r : TPath) (revDir : List String) (acc : List TPath)
    (h : ¬ (r <+: revDir.reverse)) : ancestorLoopRev r revDir acc = [] := by
  cases revDir with
  | nil =>
      simp only [List.reverse_nil] at h
      have : r ≠ [] := by rintro rfl; exact h (List.nil_prefix)
      simp [ancestorLoopRev, this]
  | cons x revRest =>
      have hne : (x :: revRest).reverse ≠ r := by
        rintro rfl
        exact h List.prefix_rfl
      simp only [ancestorLoopRev]
      rw [if_neg hne, if_pos h]

theorem ancLoop_prefix : ∀ (revDir : List String) (r : TPath) (acc : List TPath),
    r <+: revDir.reverse →
    ancestorLoopRev r revDir acc =
      acc ++ ((List.range' (r.length + 1) (revDir.length - r.length)).map
        (fun k => revDir.reverse.take k)).reverse := by
  intro revDir
  induction revDir with
  | nil =>
      intro r acc h
      have : r = [] := List.prefix_nil.mp (by simpa using h)
      subst this
      simp [ancestorLoopRev]
  | cons x revRest ih =>
      intro r acc h
      by_cases heq : (x :: revRest).reverse = r
      · simp only [ancestorLoopRev, if_pos heq]
        have hlen : r.length = revRest.length + 1 := by
          rw [← heq]; simp
        rw [show (x :: revRest).length - r.length = 0 by simp [hlen]]
        simp
      · simp only [ancestorLoopRev, if_neg heq, if_neg (not_not.mpr h)]
        have hlenr : r.length ≤ revRest.length := by
          have h1 : r.length ≤ (x :: revRest).reverse.length := h.length_le
          simp at h1
          rcases Nat.lt_or_ge r.length (revRest.length + 1) with h2 | h2
          · omega
          · exfalso
            apply heq
            have h3 : r.length = revRest.length + 1 := by omega
            have h4 := List.prefix_iff_eq_take.1 h
            rw [h4, h3]
            rw [List.take_of_length_le (by simp)]
        have hpre : r <+: revRest.reverse := by
          have hdl : (x :: revRest).reverse.dropLast = revRest.reverse := by
            simp only [List.reverse_cons]
            exact List.dropLast_concat
          have := prefix_take_of_prefix h (k := revRest.length) hlenr
          rwa [show ((x :: revRest).reverse).take revRest.length = revRest.reverse by
            rw [← hdl, List.dropLast_eq_take]; simp] at this
        rw [ih r (acc ++ [(x :: revRest).reverse]) hpre]
        rw [List.append_assoc]
        congr 1
        have hstep : revRest.length - r.length + 1 = (x :: revRest).length - r.length := by
          simp only [List.length_cons]
          omega
        rw [← hstep, List.range'_1_concat]
        rw [List.map_append, List.reverse_append]
        simp only [List.map_cons, List.map_nil, List.reverse_cons, List.reverse_nil,
          List.nil_append, List.singleton_append]
        congr 1
        · rw [show r.length + 1 + (revRest.length - r.length) = revRest.length + 1 by omega]
          rw [List.take_of_length_le (by simp)]
        · congr 1
          apply List.map_congr_left
          intro k hk
          rw [List.mem_range'_1] at hk
          have hk2 : k ≤ revRest.reverse.length := by simp; omega
          exact (List.take_append_of_le_length hk2).symm

end Tree

end Surf
namespace Surf

namespace Tree

theorem ancestorsOf_not {r d0 : TPath} (h : ¬ r <+: d0) : ancestorsOf r d0 = [] := by
  rw [ancestorsOf, ancLoop_not_prefix r d0.reverse [] (by rwa [List.reverse_reverse])]
  rfl

theorem ancestorsOf_eq {r d0 : TPath} (h : r <+: d0) :
    ancestorsOf r d0 =
      (List.range' (r.length + 1) (d0.length - r.length)).map (fun k => d0.take k) := by
  rw [ancestorsOf, ancLoop_prefix d0.reverse r [] (by rwa [List.reverse_reverse])]
  simp [List.reverse_reverse]

theorem chainOf_eq_ancestors {r p : TPath} (h : r <+: p.dropLast) :
    ancestorsOf r p.dropLast = chainOf r p := by
  rw [ancestorsOf_eq h, chainOf]
  have hr : r.length ≤ p.length - 1 := by
    have := h.length_le
    simpa using this
  have hlen : p.dropLast.length - r.length = p.length - 1 - r.length := by
    simp
  rw [hlen]
  apply List.map_congr_left
  intro k hk
  rw [List.mem_range'_1] at hk
  exact take_dropLast_eq (by omega)

theorem chainOf_nil {r p : TPath} (h : p.length ≤ r.length + 1) : chainOf r p = [] := by
  rw [chainOf, show p.length - 1 - r.length = 0 by omega]
  rfl

theorem chainOf_cons {r p : TPath} (h1 : r.length + 1 < p.length) :
    chainOf r p = p.take (r.length + 1) :: chainOf (p.take (r.length + 1)) p := by
  rw [chainOf, show p.length - 1 - r.length = (p.length - 1 - (r.length + 1)) + 1 by omega,
    List.range'_succ]
  simp only [List.map_cons]
  congr 1
  rw [chainOf, List.length_take, Nat.min_eq_left (by omega)]

theorem mem_chainOf {q r p : TPath} :
    q ∈ chainOf r p ↔ ∃ k, r.length + 1 ≤ k ∧ k < p.length ∧ q = p.take k := by
  rw [chainOf]
  simp only [List.mem_map, List.mem_range'_1]
  constructor
  · rintro ⟨k, ⟨hk1, hk2⟩, rfl⟩
    exact ⟨k, hk1, by omega, rfl⟩
  · rintro ⟨k, hk1, hk2, rfl⟩
    exact ⟨k, ⟨hk1, by omega⟩, rfl⟩

theorem goodList_mem : ∀ {cs : List DirNode} {c : DirNode}, goodList cs → c ∈ cs → goodTree c := by
  intro cs
  induction cs with
  | nil => intro c _ hc; simp at hc
  | cons c2 cs ih =>
      intro c hg hc
      rw [show goodList (c2 :: cs) = (goodTree c2 ∧ goodList cs) from rfl] at hg
      rcases List.mem_cons.1 hc with rfl | hc2
      · exact hg.1
      · exact ih hg.2 hc2

theorem goodTree_bumpSize {n : DirNode} {s : Nat} : goodTree (bumpSize n s) ↔ goodTree n := by
  obtain ⟨nm, fp, ty, sz, cs⟩ := n
  exact Iff.rfl

theorem dirChild_path {nm : String} {fp : TPath} {ty : NodeType} {sz : Nat}
    {cs : List DirNode} {c : DirNode} (hg : goodTree (.mk nm fp ty sz cs))
    (hc : c ∈ cs) (hdir : c.isDirectory = true) :
    c.fullPath.length = fp.length + 1 ∧ fp <+: c.fullPath ∧ c.fullPath.dropLast = fp := by
  rw [show goodTree (.mk nm fp ty sz cs) =
    ((∀ c ∈ cs, c.isDirectory = true → (c.fullPath.dropLast = fp ∧ c.fullPath ≠ []))
      ∧ ((cs.filter (fun c => c.isDirectory)).map DirNode.fullPath).Nodup
      ∧ (ty = NodeType.file → cs = [])
      ∧ goodList cs) from rfl] at hg
  obtain ⟨hdl, hne⟩ := hg.1 c hc hdir
  refine ⟨?_, ?_, hdl⟩
  · have := List.length_dropLast c.fullPath
    rw [hdl] at this
    have hlen : 0 < c.fullPath.length := List.length_pos.mpr hne
    omega
  · rw [← hdl]
    exact List.dropLast_prefix c.fullPath

theorem goodTree_children {nm : String} {fp : TPath} {ty : NodeType} {sz : Nat}
    {cs : List DirNode} (hg : goodTree (.mk nm fp ty sz cs)) :
    (∀ c ∈ cs, c.isDirectory = true → (c.fullPath.dropLast = fp ∧ c.fullPath ≠ []))
      ∧ ((cs.filter (fun c => c.isDirectory)).map DirNode.fullPath).Nodup
      ∧ (ty = NodeType.file → cs = [])
      ∧ goodList cs := hg

theorem goodTree_of_parts {nm : String} {fp : TPath} {ty : NodeType} {sz : Nat}
    {cs : List DirNode}
    (h : (∀ c ∈ cs, c.isDirectory = true → (c.fullPath.dropLast = fp ∧ c.fullPath ≠ []))
      ∧ ((cs.filter (fun c => c.isDirectory)).map DirNode.fullPath).Nodup
      ∧ (ty = NodeType.file → cs = [])
      ∧ goodList cs) : goodTree (.mk nm fp ty sz cs) := h

theorem file_no_children {c : DirNode} (hg : goodTree c) (hf : c.isDirectory = false) :
    c.children = [] := by
  obtain ⟨nm, fp, ty, sz, cs⟩ := c
  cases ty with
  | file => exact (goodTree_children hg).2.2.1 rfl
  | directory => simp [DirNode.isDirectory, DirNode.nodeType] at hf

theorem gt_desc : ∀ (n : DirNode), goodTree n →
    ∀ d ∈ allNodesList n.children, d.isDirectory = true →
      (n.fullPath <+: d.fullPath ∧ n.fullPath.length < d.fullPath.length) := by
  apply indOn
  intro nm fp ty sz cs ih hg d hd hdir
  simp only [DirNode.children] at hd
  rw [mem_allNodesList] at hd
  obtain ⟨c, hc, hdc⟩ := hd
  have hgc : goodTree c := goodList_mem (goodTree_children hg).2.2.2 hc
  obtain ⟨nm2, fp2, ty2, sz2, cs2⟩ := c
  simp only [allNodes] at hdc
  rcases List.mem_cons.1 hdc with rfl | hdesc
  · have := dirChild_path hg hc hdir
    simp only [DirNode.fullPath]
    simp only [DirNode.fullPath] at this
    exact ⟨this.2.1, by omega⟩
  · by_cases hcdir : (DirNode.mk nm2 fp2 ty2 sz2 cs2).isDirectory = true
    · have hsub := ih _ hc hgc d (by simpa [DirNode.children] using hdesc) hdir
      have hch := dirChild_path hg hc hcdir
      simp only [DirNode.fullPath] at hsub hch ⊢
      constructor
      · exact hch.2.1.trans hsub.1
      · omega
    · have : cs2 = [] := by
        have := file_no_children hgc (by simpa using hcdir)
        simpa [DirNode.children] using this
      subst this
      simp [allNodesList] at hdesc

end Tree

end Surf
namespace Surf

namespace Tree

theorem hasDir_step {nm : String} {fp : TPath} {ty : NodeType} {sz : Nat}
    {cs : List DirNode} {q : TPath} (hg : goodTree (.mk nm fp ty sz cs))
    (hq : hasDirAt (.mk nm fp ty sz cs) q) :
    ∃ c ∈ cs, c.isDirectory = true ∧ c.fullPath = q.take (fp.length + 1)
      ∧ (c.fullPath = q ∨ hasDirAt c q) := by
  obtain ⟨d, hd, hdir, rfl⟩ := hq
  obtain ⟨dn, dfp, dty, dsz, dcs⟩ := d
  simp only [DirNode.fullPath] at *
  simp only [DirNode.children] at hd
  rw [mem_allNodesList] at hd
  obtain ⟨c, hc, hdc⟩ := hd
  have hgc : goodTree c := goodList_mem (goodTree_children hg).2.2.2 hc
  obtain ⟨nm2, fp2, ty2, sz2, cs2⟩ := c
  simp only [allNodes] at hdc
  rcases List.mem_cons.1 hdc with heq | hdesc
  · obtain ⟨rfl, rfl, rfl, rfl, rfl⟩ :
        nm2 = dn ∧ fp2 = dfp ∧ ty2 = dty ∧ sz2 = dsz ∧ cs2 = dcs := by
      cases heq; exact ⟨rfl, rfl, rfl, rfl, rfl⟩
    have hcp := dirChild_path hg hc hdir
    refine ⟨_, hc, hdir, ?_, Or.inl rfl⟩
    simp only [DirNode.fullPath] at hcp ⊢
    rw [← hcp.1, List.take_of_length_le (le_refl _)]
  · by_cases hcdir : (DirNode.mk nm2 fp2 ty2 sz2 cs2).isDirectory = true
    · have hcp := dirChild_path hg hc hcdir
      have hsub := gt_desc _ hgc (.mk dn dfp dty dsz dcs)
        (by simpa [DirNode.children] using hdesc) hdir
      refine ⟨_, hc, hcdir, ?_,
        Or.inr ⟨.mk dn dfp dty dsz dcs, by simpa [DirNode.children] using hdesc, hdir, rfl⟩⟩
      simp only [DirNode.fullPath] at hcp hsub ⊢
      have h1 : fp2 = dfp.take fp2.length := List.prefix_iff_eq_take.1 hsub.1
      rw [hcp.1] at h1
      exact h1
    · exfalso
      have hcs2 : cs2 = [] := by
        have := file_no_children hgc (by simpa using hcdir)
        simpa [DirNode.children] using this
      subst hcs2
      simp [allNodesList] at hdesc

theorem nodup_dirs_unique {cs l₁ l₂ : List DirNode} {c : DirNode}
    (hnd : ((cs.filter (fun c => c.isDirectory)).map DirNode.fullPath).Nodup)
    (hsplit : cs = l₁ ++ c :: l₂) (hcdir : c.isDirectory = true) :
    ∀ c2 ∈ l₂, c2.isDirectory = true → c2.fullPath ≠ c.fullPath := by
  subst hsplit
  intro c2 hc2 hc2dir
  rw [List.filter_append, List.filter_cons_of_pos (by simpa using hcdir),
    List.map_append, List.map_cons] at hnd
  have h1 := (List.nodup_append.1 hnd).2.1
  have h2 := (List.nodup_cons.1 h1).1
  intro heq
  apply h2
  rw [← heq]
  exact List.mem_map_of_mem DirNode.fullPath (List.mem_filter.2 ⟨hc2, by simpa using hc2dir⟩)

theorem insertStep_shape (rec : DirNode → DirNode) (q : TPath) (s : Nat) :
    ∀ cs : List DirNode,
    (∃ l₁ c l₂, cs = l₁ ++ c :: l₂
      ∧ (∀ c2 ∈ l₁, ¬ (c2.isDirectory = true ∧ c2.fullPath = q))
      ∧ c.isDirectory = true ∧ c.fullPath = q
      ∧ insertStep rec q s cs = l₁ ++ rec (bumpSize c s) :: l₂)
    ∨ ((∀ c2 ∈ cs, ¬ (c2.isDirectory = true ∧ c2.fullPath = q))
      ∧ insertStep rec q s cs = cs ++ [rec (newDirWithSize q s)]) := by
  intro cs
  induction cs with
  | nil => exact Or.inr ⟨by simp, by simp [insertStep]⟩
  | cons c cs ih =>
      by_cases h : c.isDirectory = true ∧ c.fullPath = q
      · exact Or.inl ⟨[], c, cs, rfl, by simp, h.1, h.2, by simp [insertStep, if_pos h]⟩
      · rcases ih with ⟨l₁, c1, l₂, rfl, hl₁, hdir, hfp, heq⟩ | ⟨hall, heq⟩
        · refine Or.inl ⟨c :: l₁, c1, l₂, rfl, ?_, hdir, hfp, ?_⟩
          · intro c2 hc2
            rcases List.mem_cons.1 hc2 with rfl | hc2'
            · exact h
            · exact hl₁ c2 hc2'
          · simp only [insertStep, if_neg h, heq]
            rfl
        · refine Or.inr ⟨?_, ?_⟩
          · intro c2 hc2
            rcases List.mem_cons.1 hc2 with rfl | hc2'
            · exact h
            · exact hall c2 hc2'
          · simp only [insertStep, if_neg h, heq]
            rfl

theorem sumSizes_append (es : List TEntry) (e : TEntry) :
    sumSizes (es ++ [e]) = sumSizes es + e.size := by
  simp [sumSizes]

theorem sumRooted_append (q : TPath) (es : List TEntry) (p : TPath) (s : Nat) :
    sumRooted q (es ++ [⟨p, s⟩]) =
      sumRooted q es + (if rootedAt q p then s else 0) := by
  by_cases h : rootedAt q p <;>
    simp [sumRooted, sumSizes, List.filter_append, h]

theorem sumRooted_le (q : TPath) (es : List TEntry) : sumRooted q es ≤ sumSizes es := by
  induction es with
  | nil => simp [sumRooted, sumSizes]
  | cons e es ih =>
      by_cases h : rootedAt q e.path
      · simpa [sumRooted, sumSizes, List.filter_cons, h] using ih
      · have : sumRooted q (e :: es) = sumRooted q es := by
          simp [sumRooted, sumSizes, List.filter_cons, h]
        rw [this]
        have : sumSizes (e :: es) = e.size + sumSizes es := by simp [sumSizes]
        omega

theorem sumRooted_nil (q : TPath) : sumRooted q [] = 0 := by
  simp [sumRooted, sumSizes]

end Tree

end Surf
namespace Surf

namespace Tree

theorem isDirectory_iff {c : DirNode} :
    c.isDirectory = true ↔ c.nodeType = NodeType.directory := by
  obtain ⟨nm, fp, ty, sz, cs⟩ := c
  cases ty <;> simp [DirNode.isDirectory, DirNode.nodeType]

theorem bumpSize_fullPath (c : DirNode) (s : Nat) : (bumpSize c s).fullPath = c.fullPath := by
  obtain ⟨nm, fp, ty, sz, cs⟩ := c; rfl

theorem bumpSize_nodeType (c : DirNode) (s : Nat) : (bumpSize c s).nodeType = c.nodeType := by
  obtain ⟨nm, fp, ty, sz, cs⟩ := c; rfl

theorem bumpSize_children (c : DirNode) (s : Nat) : (bumpSize c s).children = c.children := by
  obtain ⟨nm, fp, ty, sz, cs⟩ := c; rfl

theorem bumpSize_size (c : DirNode) (s : Nat) : (bumpSize c s).size = satAdd c.size s := by
  obtain ⟨nm, fp, ty, sz, cs⟩ := c; rfl

theorem bumpSize_isDirectory (c : DirNode) (s : Nat) :
    (bumpSize c s).isDirectory = c.isDirectory := by
  obtain ⟨nm, fp, ty, sz, cs⟩ := c; rfl

theorem hasDirAt_children {t t2 : DirNode} (h : t.children = t2.children) {q : TPath} :
    hasDirAt t q ↔ hasDirAt t2 q := by
  unfold hasDirAt
  rw [h]

theorem goodList_append {l₁ l₂ : List DirNode} :
    goodList (l₁ ++ l₂) ↔ goodList l₁ ∧ goodList l₂ := by
  induction l₁ with
  | nil => simp [show goodList [] = True from rfl]
  | cons c cs ih =>
      rw [List.cons_append,
        show goodList (c :: (cs ++ l₂)) = (goodTree c ∧ goodList (cs ++ l₂)) from rfl,
        show goodList (c :: cs) = (goodTree c ∧ goodList cs) from rfl, ih]
      tauto

theorem goodTree_newFile (p : TPath) (s : Nat) : goodTree (newFile p s) := by
  refine goodTree_of_parts ⟨?_, ?_, ?_, ?_⟩
  · intro c hc; simp [newFile] at hc
  · simp [newFile]
  · intro _; rfl
  · exact trivial

theorem goodTree_newDirWithSize (q : TPath) (s : Nat) : goodTree (newDirWithSize q s) := by
  refine goodTree_of_parts ⟨?_, ?_, ?_, ?_⟩
  · intro c hc; simp [newDirWithSize] at hc
  · simp [newDirWithSize]
  · intro h; simp at h
  · exact trivial

theorem newFile_not_dir (p : TPath) (s : Nat) : (newFile p s).isDirectory = false := by
  simp [newFile, DirNode.isDirectory, DirNode.nodeType]

theorem take_take_of_le {p : TPath} {j k : Nat} (h : j ≤ k) :
    (p.take k).take j = p.take j := by
  rw [List.take_take, Nat.min_eq_left h]

theorem dropLast_take {p : TPath} {k : Nat} (h : k + 1 ≤ p.length) :
    (p.take (k + 1)).dropLast = p.take k := by
  rw [List.dropLast_eq_take, List.length_take, Nat.min_eq_left h]
  rw [show k + 1 - 1 = k by omega, take_take_of_le (by omega)]

theorem forest_not_rooted {p fp : TPath} {l : List DirNode}
    (hgl : goodList l)
    (hchild : ∀ c ∈ l, c.isDirectory = true → (c.fullPath.dropLast = fp ∧ c.fullPath ≠ []))
    (hclean : ∀ c ∈ l, ¬ (c.isDirectory = true ∧ c.fullPath = p.take (fp.length + 1))) :
    ∀ d ∈ allNodesList l, d.isDirectory = true → ¬ rootedAt d.fullPath p := by
  intro d hd hdir hroot
  rw [mem_allNodesList] at hd
  obtain ⟨c, hc, hdc⟩ := hd
  have hgc : goodTree c := goodList_mem hgl hc
  obtain ⟨nm2, fp2, ty2, sz2, cs2⟩ := c
  simp only [allNodes] at hdc
  have hlen2 : ∀ (h2 : (DirNode.mk nm2 fp2 ty2 sz2 cs2).isDirectory = true),
      fp2.length = fp.length + 1 := by
    intro h2
    obtain ⟨hdl, hne⟩ := hchild _ hc h2
    simp only [DirNode.fullPath] at hdl hne
    have := List.length_dropLast fp2
    rw [hdl] at this
    have : 0 < fp2.length := List.length_pos.mpr hne
    omega
  rcases List.mem_cons.1 hdc with heq | hdesc
  · subst heq
    have hl2 := hlen2 hdir
    apply hclean _ hc
    refine ⟨hdir, ?_⟩
    obtain ⟨hpre, hlt⟩ := hroot
    simp only [DirNode.fullPath] at *
    rw [List.prefix_iff_eq_take.1 hpre, hl2]
  · by_cases hcdir : (DirNode.mk nm2 fp2 ty2 sz2 cs2).isDirectory = true
    · have hl2 := hlen2 hcdir
      have hsub := gt_desc _ hgc d (by simpa [DirNode.children] using hdesc) hdir
      simp only [DirNode.fullPath] at hsub
      apply hclean _ hc
      refine ⟨hcdir, ?_⟩
      obtain ⟨hpre, hlt⟩ := hroot
      have h1 : fp2 = d.fullPath.take fp2.length := List.prefix_iff_eq_take.1 hsub.1
      have h2 : d.fullPath = p.take d.fullPath.length := List.prefix_iff_eq_take.1 hpre
      simp only [DirNode.fullPath] at *
      rw [h1, h2, take_take_of_le (by omega), hl2]
    · exfalso
      have hcs2 : cs2 = [] := by
        have := file_no_children hgc (by simpa using hcdir)
        simpa [DirNode.children] using this
      subst hcs2
      simp [allNodesList] at hdesc

end Tree

end Surf
namespace Surf

namespace Tree

theorem allNodesList_singleton_file (p : TPath) (s : Nat) :
    allNodesList [newFile p s] = [newFile p s] := by
  simp [allNodesList, newFile, allNodes]

theorem appendFile_spec {nm : String} {fp : TPath} {sz : Nat} {cs : List DirNode}
    (p : TPath) (s : Nat) (es : List TEntry)
    (hg : goodTree (.mk nm fp .directory sz cs))
    (hds : ∀ d ∈ allNodesList cs, d.isDirectory = true → d.size = sumRooted d.fullPath es)
    (hno : ∀ d ∈ allNodesList cs, d.isDirectory = true → ¬ rootedAt d.fullPath p) :
    goodTree (.mk nm fp .directory sz (cs ++ [newFile p s]))
  ∧ (∀ d ∈ allNodesList (cs ++ [newFile p s]), d.isDirectory = true →
        d.size = sumRooted d.fullPath (es ++ [⟨p, s⟩]))
  ∧ (∀ q, hasDirAt (.mk nm fp .directory sz cs) q →
        hasDirAt (.mk nm fp .directory sz (cs ++ [newFile p s])) q) := by
  have hparts := goodTree_children hg
  refine ⟨goodTree_of_parts ⟨?_, ?_, ?_, ?_⟩, ?_, ?_⟩
  · intro c hc hcdir
    rcases List.mem_append.1 hc with hc1 | hc1
    · exact hparts.1 c hc1 hcdir
    · rw [List.mem_singleton.1 hc1] at hcdir
      rw [newFile_not_dir] at hcdir
      cases hcdir
  · rw [List.filter_append]
    rw [show List.filter (fun c => c.isDirectory) [newFile p s] = [] from by
      simp [newFile_not_dir]]
    simpa using hparts.2.1
  · intro h; cases h
  · exact goodList_append.2 ⟨hparts.2.2.2, ⟨goodTree_newFile p s, trivial⟩⟩
  · intro d hd hdir
    rw [allNodesList_append, allNodesList_singleton_file] at hd
    rcases List.mem_append.1 hd with hd1 | hd1
    · rw [sumRooted_append, if_neg (hno d hd1 hdir)]
      rw [hds d hd1 hdir]
      omega
    · rw [List.mem_singleton.1 hd1] at hdir
      rw [newFile_not_dir] at hdir
      cases hdir
  · rintro q ⟨d, hd, hdir, hfp⟩
    refine ⟨d, ?_, hdir, hfp⟩
    simp only [DirNode.children] at hd ⊢
    rw [allNodesList_append]
    exact List.mem_append.2 (Or.inl hd)

end Tree

end Surf
namespace Surf

namespace Tree

theorem self_mem_allNodes (c : DirNode) : c ∈ allNodes c := by
  obtain ⟨nm, fp, ty, sz, cs⟩ := c
  simp [allNodes]

theorem mem_allNodes_of_child {d c : DirNode} (h : d ∈ allNodesList c.children) :
    d ∈ allNodes c := by
  obtain ⟨nm, fp, ty, sz, cs⟩ := c
  simp only [DirNode.children] at h
  simp only [allNodes]
  exact List.mem_cons_of_mem _ h

theorem newDirWithSize_fullPath (q : TPath) (s : Nat) : (newDirWithSize q s).fullPath = q := rfl

theorem newDirWithSize_nodeType (q : TPath) (s : Nat) :
    (newDirWithSize q s).nodeType = NodeType.directory := rfl

theorem newDirWithSize_size (q : TPath) (s : Nat) : (newDirWithSize q s).size = s := rfl

theorem newDirWithSize_children (q : TPath) (s : Nat) : (newDirWithSize q s).children = [] := rfl

theorem hasDirAt_newDir (q q2 : TPath) (s : Nat) : ¬ hasDirAt (newDirWithSize q s) q2 := by
  rintro ⟨d, hd, _, _⟩
  rw [show (newDirWithSize q s).children = [] from rfl] at hd
  simp [allNodesList] at hd

theorem newDir_isDirectory (q : TPath) (s : Nat) : (newDirWithSize q s).isDirectory = true := rfl

end Tree

end Surf
namespace Surf

namespace Tree

theorem insertChain_spec (p : TPath) (s : Nat) (es : List TEntry)
    (hbound : sumSizes es + s ≤ U64MAX) :
    ∀ (chain : List TPath) (n : DirNode),
      n.nodeType = NodeType.directory →
      goodTree n →
      chain = chainOf n.fullPath p →
      n.fullPath <+: p →
      n.fullPath.length < p.length →
      (∀ d ∈ allNodesList n.children, d.isDirectory = true →
          d.size = sumRooted d.fullPath es) →
      (∀ q ∈ chain, ¬ hasDirAt n q → sumRooted q es = 0) →
      ((insertChain p s chain n).name = n.name
        ∧ (insertChain p s chain n).fullPath = n.fullPath
        ∧ (insertChain p s chain n).nodeType = n.nodeType
        ∧ (insertChain p s chain n).size = n.size
        ∧ goodTree (insertChain p s chain n)
        ∧ (∀ d ∈ allNodesList (insertChain p s chain n).children, d.isDirectory = true →
            d.size = sumRooted d.fullPath (es ++ [⟨p, s⟩]))
        ∧ (∀ q, hasDirAt n q → hasDirAt (insertChain p s chain n) q)
        ∧ (∀ q ∈ chain, hasDirAt (insertChain p s chain n) q)) := by
  intro chain
  induction chain with
  | nil =>
      intro n hty hg hchain hpre hlt hds habs
      obtain ⟨nm, fp, ty, sz, cs⟩ := n
      simp only [DirNode.nodeType] at hty
      subst hty
      simp only [DirNode.fullPath] at hchain hpre hlt
      simp only [DirNode.children] at hds
      have hplen : p.length ≤ fp.length + 1 := by
        by_contra hcon
        push_neg at hcon
        rw [chainOf_cons hcon] at hchain
        simp at hchain
      have hno : ∀ d ∈ allNodesList cs, d.isDirectory = true →
          ¬ rootedAt d.fullPath p := by
        intro d hd hdir hroot
        have hdesc := gt_desc _ hg d (by simpa [DirNode.children] using hd) hdir
        simp only [DirNode.fullPath] at hdesc
        obtain ⟨_, hlen2⟩ := hdesc
        obtain ⟨_, hlen3⟩ := hroot
        simp only [DirNode.fullPath] at hlen3
        omega
      have hspec := appendFile_spec p s es hg hds hno
      exact ⟨rfl, rfl, rfl, rfl, hspec.1, hspec.2.1, hspec.2.2,
        fun q hq => absurd hq (List.not_mem_nil q)⟩
  | cons q1 rest ih =>
      intro n hty hg hchain hpre hlt hds habs
      obtain ⟨nm, fp, ty, sz, cs⟩ := n
      simp only [DirNode.nodeType] at hty
      subst hty
      simp only [DirNode.fullPath] at hchain hpre hlt
      simp only [DirNode.children] at hds
      have hplen : fp.length + 1 < p.length := by
        by_contra hcon
        push_neg at hcon
        rw [chainOf_nil hcon] at hchain
        simp at hchain
      rw [chainOf_cons hplen] at hchain
      obtain ⟨hq1, hrest⟩ : q1 = p.take (fp.length + 1)
          ∧ rest = chainOf (p.take (fp.length + 1)) p := by
        cases hchain
        exact ⟨rfl, rfl⟩
      have hq1len : q1.length = fp.length + 1 := by
        rw [hq1, List.length_take, Nat.min_eq_left (by omega)]
      have hq1pre : q1 <+: p := by rw [hq1]; exact List.take_prefix _ p
      have hq1lt : q1.length < p.length := by omega
      have hq1root : rootedAt q1 p := ⟨hq1pre, hq1lt⟩
      have hq1ne : q1 ≠ [] := by
        intro h
        rw [h] at hq1len
        simp at hq1len
      have hq1dl : q1.dropLast = fp := by
        rw [hq1, dropLast_take (by omega)]
        exact (List.prefix_iff_eq_take.1 hpre).symm
      have hparts := goodTree_children hg
      have hq_take_chain : ∀ q ∈ rest, q.take (fp.length + 1) = q1 := by
        intro q hqrest
        obtain ⟨k, hk1, hk2, hkq⟩ := mem_chainOf.1 (hrest ▸ hqrest)
        rw [List.length_take, Nat.min_eq_left (by omega)] at hk1
        rw [hkq, take_take_of_le (by omega), ← hq1]
      rcases insertStep_shape (insertChain p s rest) q1 s cs with
        ⟨l₁, c, l₂, hsplit, hl₁, hcdir, hcfp, heq⟩ | ⟨hall, heq⟩
      · -- an existing directory child at q1 receives the rest of the chain
        subst hsplit
        have hins : insertChain p s (q1 :: rest)
              (DirNode.mk nm fp .directory sz (l₁ ++ c :: l₂))
            = DirNode.mk nm fp .directory sz
              (l₁ ++ insertChain p s rest (bumpSize c s) :: l₂) := by
          show DirNode.mk nm fp .directory sz
              (insertStep (insertChain p s rest) q1 s (l₁ ++ c :: l₂)) = _
          rw [heq]
        have hcmem : c ∈ l₁ ++ c :: l₂ := List.mem_append.2 (Or.inr (List.mem_cons_self c l₂))
        have hgl₁ : goodList l₁ := (goodList_append.1 hparts.2.2.2).1
        have hgcl₂ : goodList (c :: l₂) := (goodList_append.1 hparts.2.2.2).2
        have hgc : goodTree c :=
          (show goodTree c ∧ goodList l₂ from hgcl₂).1
        have hgl₂ : goodList l₂ :=
          (show goodTree c ∧ goodList l₂ from hgcl₂).2
        have hcsize : c.size = sumRooted q1 es := by
          have := hds c (mem_allNodesList.2 ⟨c, hcmem, self_mem_allNodes c⟩) hcdir
          rw [hcfp] at this
          exact this
        have hnotn : ∀ q ∈ rest, ¬ hasDirAt c q →
            ¬ hasDirAt (DirNode.mk nm fp .directory sz (l₁ ++ c :: l₂)) q := by
          intro q hqrest hnotc hhas
          obtain ⟨c', hc', hc'dir, hc'fp, hc'rest⟩ := hasDir_step hg hhas
          rw [hq_take_chain q hqrest] at hc'fp
          rcases List.mem_append.1 hc' with hcl | hcl
          · exact hl₁ c' hcl ⟨hc'dir, hc'fp⟩
          · rcases List.mem_cons.1 hcl with rfl | hcl2
            · rcases hc'rest with hfpq | hdq
              · obtain ⟨k, hk1, hk2, hkq⟩ := mem_chainOf.1 (hrest ▸ hqrest)
                rw [List.length_take, Nat.min_eq_left (by omega)] at hk1
                have : c'.fullPath.length = q1.length := by rw [hc'fp]
                rw [hfpq, hkq, List.length_take, Nat.min_eq_left (by omega)] at this
                omega
              · exact hnotc hdq
            · exact nodup_dirs_unique hparts.2.1 rfl hcdir c' hcl2 hc'dir
                (by rw [hc'fp, hcfp])
        have IHc := ih (bumpSize c s)
          (by rw [bumpSize_nodeType]; exact isDirectory_iff.1 hcdir)
          (goodTree_bumpSize.2 hgc)
          (by rw [bumpSize_fullPath, hcfp, hq1]; exact hrest)
          (by rw [bumpSize_fullPath, hcfp]; exact hq1pre)
          (by rw [bumpSize_fullPath, hcfp]; exact hq1lt)
          (by
            intro d hd hdir
            rw [bumpSize_children] at hd
            exact hds d (mem_allNodesList.2 ⟨c, hcmem, mem_allNodes_of_child hd⟩) hdir)
          (by
            intro q hqrest hnot
            rw [hasDirAt_children (bumpSize_children c s)] at hnot
            exact habs q (List.mem_cons_of_mem q1 hqrest) (hnotn q hqrest hnot))
        have hc2fp : (insertChain p s rest (bumpSize c s)).fullPath = q1 := by
          rw [IHc.2.1, bumpSize_fullPath, hcfp]
        have hc2ty : (insertChain p s rest (bumpSize c s)).nodeType = NodeType.directory := by
          rw [IHc.2.2.1, bumpSize_nodeType]
          exact isDirectory_iff.1 hcdir
        have hc2dir : (insertChain p s rest (bumpSize c s)).isDirectory = true :=
          isDirectory_iff.2 hc2ty
        have hc2size : (insertChain p s rest (bumpSize c s)).size
            = sumRooted q1 (es ++ [⟨p, s⟩]) := by
          rw [IHc.2.2.2.1, bumpSize_size, hcsize]
          have hle : sumRooted q1 es + s ≤ U64MAX :=
            le_trans (by have := sumRooted_le q1 es; omega) hbound
          rw [satAdd_eq_add hle, sumRooted_append, if_pos hq1root]
        have hc2g : goodTree (insertChain p s rest (bumpSize c s)) := IHc.2.2.2.2.1
        have hc2ds := IHc.2.2.2.2.2.1
        have hc2mono := IHc.2.2.2.2.2.2.1
        have hc2chain := IHc.2.2.2.2.2.2.2
        rw [hins]
        refine ⟨rfl, rfl, rfl, rfl, goodTree_of_parts ⟨?_, ?_, ?_, ?_⟩, ?_, ?_, ?_⟩
        · intro c' hc' hc'dir
          rcases List.mem_append.1 hc' with hcl | hcl
          · exact hparts.1 c' (List.mem_append.2 (Or.inl hcl)) hc'dir
          · rcases List.mem_cons.1 hcl with rfl | hcl2
            · rw [hc2fp]
              exact ⟨hq1dl, hq1ne⟩
            · exact hparts.1 c'
                (List.mem_append.2 (Or.inr (List.mem_cons_of_mem c hcl2))) hc'dir
        · rw [List.filter_append, List.filter_cons_of_pos (by simpa using hc2dir),
            List.map_append, List.map_cons, hc2fp]
          have hold := hparts.2.1
          rw [List.filter_append, List.filter_cons_of_pos (by simpa using hcdir),
            List.map_append, List.map_cons, hcfp] at hold
          exact hold
        · intro h; cases h
        · exact goodList_append.2 ⟨hgl₁, hc2g, hgl₂⟩
        · -- directory sizes after the insertion
          intro d hd hdir
          simp only [DirNode.children] at hd
          rw [allNodesList_append] at hd
          rcases List.mem_append.1 hd with hd1 | hd1
          · have hmem : d ∈ allNodesList (l₁ ++ c :: l₂) := by
              rw [allNodesList_append]
              exact List.mem_append.2 (Or.inl hd1)
            have hnr : ¬ rootedAt d.fullPath p := by
              refine forest_not_rooted hgl₁
                (fun c' hc' hdir' => hparts.1 c' (List.mem_append.2 (Or.inl hc')) hdir')
                (fun c' hc' hcontra => hl₁ c' hc' (by rwa [← hq1] at hcontra))
                d hd1 hdir
            rw [sumRooted_append, if_neg hnr, hds d hmem hdir]
            omega
          · rw [show allNodesList (insertChain p s rest (bumpSize c s) :: l₂)
                = allNodes (insertChain p s rest (bumpSize c s)) ++ allNodesList l₂
                from rfl] at hd1
            rcases List.mem_append.1 hd1 with hd2 | hd2
            · have halln : allNodes (insertChain p s rest (bumpSize c s))
                  = insertChain p s rest (bumpSize c s)
                    :: allNodesList (insertChain p s rest (bumpSize c s)).children := by
                obtain ⟨a, b, cE, dE, e⟩ := insertChain p s rest (bumpSize c s)
                simp [allNodes, DirNode.children]
              rw [halln] at hd2
              rcases List.mem_cons.1 hd2 with rfl | hd3
              · rw [hc2fp]
                exact hc2size
              · exact hc2ds d hd3 hdir
            · have hmem : d ∈ allNodesList (l₁ ++ c :: l₂) := by
                rw [allNodesList_append]
                refine List.mem_append.2 (Or.inr ?_)
                rw [show allNodesList (c :: l₂) = allNodes c ++ allNodesList l₂ from rfl]
                exact List.mem_append.2 (Or.inr hd2)
              have hnr : ¬ rootedAt d.fullPath p := by
                refine forest_not_rooted hgl₂
                  (fun c' hc' hdir' => hparts.1 c'
                    (List.mem_append.2 (Or.inr (List.mem_cons_of_mem c hc'))) hdir')
                  (fun c' hc' hcontra => ?_)
                  d hd2 hdir
                exact nodup_dirs_unique hparts.2.1 rfl hcdir c' hc' hcontra.1
                  (by rw [hcontra.2, hcfp, hq1])
              rw [sumRooted_append, if_neg hnr, hds d hmem hdir]
              omega
        · -- monotonicity of directory presence
          rintro q ⟨d, hd, hdir, hfp⟩
          simp only [DirNode.children] at hd
          rw [allNodesList_append] at hd
          rcases List.mem_append.1 hd with hd1 | hd1
          · refine ⟨d, ?_, hdir, hfp⟩
            simp only [DirNode.children]
            rw [allNodesList_append]
            exact List.mem_append.2 (Or.inl hd1)
          · rw [show allNodesList (c :: l₂) = allNodes c ++ allNodesList l₂ from rfl] at hd1
            rcases List.mem_append.1 hd1 with hd2 | hd2
            · have halln : allNodes c = c :: allNodesList c.children := by
                obtain ⟨a, b, cE, dE, e⟩ := c
                simp [allNodes, DirNode.children]
              rw [halln] at hd2
              rcases List.mem_cons.1 hd2 with hdc | hd3
              · have hqq1 : q = q1 := by rw [← hfp, hdc, hcfp]
                refine ⟨insertChain p s rest (bumpSize c s), ?_, hc2dir,
                  by rw [hc2fp]; exact hqq1.symm⟩
                simp only [DirNode.children]
                rw [allNodesList_append]
                refine List.mem_append.2 (Or.inr ?_)
                rw [show allNodesList (insertChain p s rest (bumpSize c s) :: l₂)
                  = allNodes (insertChain p s rest (bumpSize c s)) ++ allNodesList l₂
                  from rfl]
                exact List.mem_append.2 (Or.inl (self_mem_allNodes _))
              · have hcq : hasDirAt c q := ⟨d, hd3, hdir, hfp⟩
                have hc1q : hasDirAt (bumpSize c s) q := by
                  rwa [hasDirAt_children (bumpSize_children c s)]
                obtain ⟨d', hd', hdir', hfp'⟩ := hc2mono q hc1q
                refine ⟨d', ?_, hdir', hfp'⟩
                simp only [DirNode.children]
                rw [allNodesList_append]
                refine List.mem_append.2 (Or.inr ?_)
                rw [show allNodesList (insertChain p s rest (bumpSize c s) :: l₂)
                  = allNodes (insertChain p s rest (bumpSize c s)) ++ allNodesList l₂
                  from rfl]
                exact List.mem_append.2 (Or.inl (mem_allNodes_of_child hd'))
            · refine ⟨d, ?_, hdir, hfp⟩
              simp only [DirNode.children]
              rw [allNodesList_append]
              refine List.mem_append.2 (Or.inr ?_)
              rw [show allNodesList (insertChain p s rest (bumpSize c s) :: l₂)
                = allNodes (insertChain p s rest (bumpSize c s)) ++ allNodesList l₂
                from rfl]
              exact List.mem_append.2 (Or.inr hd2)
        · -- every chain element is now present
          intro q hq
          rcases List.mem_cons.1 hq with rfl | hqrest
          · refine ⟨insertChain p s rest (bumpSize c s), ?_, hc2dir, hc2fp⟩
            simp only [DirNode.children]
            rw [allNodesList_append]
            refine List.mem_append.2 (Or.inr ?_)
            rw [show allNodesList (insertChain p s rest (bumpSize c s) :: l₂)
              = allNodes (insertChain p s rest (bumpSize c s)) ++ allNodesList l₂
              from rfl]
            exact List.mem_append.2 (Or.inl (self_mem_allNodes _))
          · obtain ⟨d', hd', hdir', hfp'⟩ := hc2chain q hqrest
            refine ⟨d', ?_, hdir', hfp'⟩
            simp only [DirNode.children]
            rw [allNodesList_append]
            refine List.mem_append.2 (Or.inr ?_)
            rw [show allNodesList (insertChain p s rest (bumpSize c s) :: l₂)
              = allNodes (insertChain p s rest (bumpSize c s)) ++ allNodesList l₂
              from rfl]
            exact List.mem_append.2 (Or.inl (mem_allNodes_of_child hd'))
      · -- no directory child at q1: a fresh directory is created
        have hins : insertChain p s (q1 :: rest) (DirNode.mk nm fp .directory sz cs)
            = DirNode.mk nm fp .directory sz
              (cs ++ [insertChain p s rest (newDirWithSize q1 s)]) := by
          show DirNode.mk nm fp .directory sz
              (insertStep (insertChain p s rest) q1 s cs) = _
          rw [heq]
        have hnotn : ∀ q ∈ q1 :: rest,
            ¬ hasDirAt (DirNode.mk nm fp .directory sz cs) q := by
          intro q hq hhas
          obtain ⟨c', hc', hc'dir, hc'fp, _⟩ := hasDir_step hg hhas
          have hfix : q.take (fp.length + 1) = q1 := by
            rcases List.mem_cons.1 hq with rfl | hqrest
            · rw [hq1, take_take_of_le (le_refl _)]
            · exact hq_take_chain q hqrest
          rw [hfix] at hc'fp
          exact hall c' hc' ⟨hc'dir, hc'fp⟩
        have hq1abs : sumRooted q1 es = 0 :=
          habs q1 (List.mem_cons_self q1 rest) (hnotn q1 (List.mem_cons_self q1 rest))
        have IHc := ih (newDirWithSize q1 s)
          (newDirWithSize_nodeType q1 s)
          (goodTree_newDirWithSize q1 s)
          (by rw [newDirWithSize_fullPath, hq1]; exact hrest)
          (by rw [newDirWithSize_fullPath]; exact hq1pre)
          (by rw [newDirWithSize_fullPath]; exact hq1lt)
          (by
            intro d hd hdir
            rw [newDirWithSize_children] at hd
            simp [allNodesList] at hd)
          (by
            intro q hqrest hnot
            exact habs q (List.mem_cons_of_mem q1 hqrest)
              (hnotn q (List.mem_cons_of_mem q1 hqrest)))
        have hc2fp : (insertChain p s rest (newDirWithSize q1 s)).fullPath = q1 := by
          rw [IHc.2.1, newDirWithSize_fullPath]
        have hc2ty : (insertChain p s rest (newDirWithSize q1 s)).nodeType
            = NodeType.directory := by
          rw [IHc.2.2.1, newDirWithSize_nodeType]
        have hc2dir : (insertChain p s rest (newDirWithSize q1 s)).isDirectory = true :=
          isDirectory_iff.2 hc2ty
        have hc2size : (insertChain p s rest (newDirWithSize q1 s)).size
            = sumRooted q1 (es ++ [⟨p, s⟩]) := by
          rw [IHc.2.2.2.1, newDirWithSize_size, sumRooted_append, if_pos hq1root, hq1abs]
          omega
        have hc2g : goodTree (insertChain p s rest (newDirWithSize q1 s)) := IHc.2.2.2.2.1
        have hc2ds := IHc.2.2.2.2.2.1
        have hc2chain := IHc.2.2.2.2.2.2.2
        rw [hins]
        refine ⟨rfl, rfl, rfl, rfl, goodTree_of_parts ⟨?_, ?_, ?_, ?_⟩, ?_, ?_, ?_⟩
        · intro c' hc' hc'dir
          rcases List.mem_append.1 hc' with hcl | hcl
          · exact hparts.1 c' hcl hc'dir
          · rw [List.mem_singleton.1 hcl, hc2fp]
            exact ⟨hq1dl, hq1ne⟩
        · rw [List.filter_append, List.filter_cons_of_pos (by simpa using hc2dir)]
          rw [show List.filter (fun c => c.isDirectory) ([] : List DirNode) = [] from rfl]
          rw [List.map_append, List.map_cons, hc2fp]
          rw [List.nodup_append]
          refine ⟨hparts.2.1, by simp, ?_⟩
          intro a ha hb
          simp only [List.map_nil, List.mem_cons, List.not_mem_nil, or_false] at hb
          subst hb
          rw [List.mem_map] at ha
          obtain ⟨c', hc', hfp'⟩ := ha
          rw [List.mem_filter] at hc'
          exact hall c' hc'.1 ⟨by simpa using hc'.2, hfp'⟩
        · intro h; cases h
        · exact goodList_append.2 ⟨hparts.2.2.2, hc2g, trivial⟩
        · intro d hd hdir
          simp only [DirNode.children] at hd
          rw [allNodesList_append] at hd
          rcases List.mem_append.1 hd with hd1 | hd1
          · have hnr : ¬ rootedAt d.fullPath p := by
              refine forest_not_rooted hparts.2.2.2
                (fun c' hc' hdir' => hparts.1 c' hc' hdir')
                (fun c' hc' hcontra => hall c' hc' (by rwa [← hq1] at hcontra))
                d hd1 hdir
            rw [sumRooted_append, if_neg hnr, hds d hd1 hdir]
            omega
          · rw [show allNodesList [insertChain p s rest (newDirWithSize q1 s)]
                = allNodes (insertChain p s rest (newDirWithSize q1 s)) ++ [] from by
                  simp [allNodesList]] at hd1
            rw [List.append_nil] at hd1
            have halln : allNodes (insertChain p s rest (newDirWithSize q1 s))
                = insertChain p s rest (newDirWithSize q1 s)
                  :: allNodesList (insertChain p s rest (newDirWithSize q1 s)).children := by
              obtain ⟨a, b, cE, dE, e⟩ := insertChain p s rest (newDirWithSize q1 s)
              simp [allNodes, DirNode.children]
            rw [halln] at hd1
            rcases List.mem_cons.1 hd1 with rfl | hd3
            · rw [show (insertChain p s rest (newDirWithSize q1 s)).fullPath = q1 from hc2fp]
              exact hc2size
            · exact hc2ds d hd3 hdir
        · rintro q ⟨d, hd, hdir, hfp⟩
          refine ⟨d, ?_, hdir, hfp⟩
          simp only [DirNode.children] at hd ⊢
          rw [allNodesList_append]
          exact List.mem_append.2 (Or.inl hd)
        · intro q hq
          rcases List.mem_cons.1 hq with hqq | hqrest
          · refine ⟨insertChain p s rest (newDirWithSize q1 s), ?_, hc2dir,
              by rw [hc2fp]; exact hqq.symm⟩
            simp only [DirNode.children]
            rw [allNodesList_append]
            refine List.mem_append.2 (Or.inr ?_)
            rw [show allNodesList [insertChain p s rest (newDirWithSize q1 s)]
              = allNodes (insertChain p s rest (newDirWithSize q1 s)) ++ [] from by
                simp [allNodesList]]
            rw [List.append_nil]
            exact self_mem_allNodes _
          · obtain ⟨d', hd', hdir', hfp'⟩ := hc2chain q hqrest
            refine ⟨d', ?_, hdir', hfp'⟩
            simp only [DirNode.children]
            rw [allNodesList_append]
            refine List.mem_append.2 (Or.inr ?_)
            rw [show allNodesList [insertChain p s rest (newDirWithSize q1 s)]
              = allNodes (insertChain p s rest (newDirWithSize q1 s)) ++ [] from by
                simp [allNodesList]]
            rw [List.append_nil]
            exact mem_allNodes_of_child hd'

end Tree

end Surf
namespace Surf

namespace Tree

theorem insert_inv (r p : TPath) (s : Nat) (es : List TEntry) (t : DirNode)
    (hbound : sumSizes es + s ≤ U64MAX)
    (hrp : rootedAt r p)
    (hfp : t.fullPath = r) (hty : t.nodeType = NodeType.directory)
    (hg : goodTree t)
    (hsz : t.size = sumSizes es)
    (hds : ∀ d ∈ allNodesList t.children, d.isDirectory = true →
        d.size = sumRooted d.fullPath es)
    (habs : ∀ q, r.length < q.length → ¬ hasDirAt t q → sumRooted q es = 0) :
    (insertFileIntoTree t r p s).fullPath = r
  ∧ (insertFileIntoTree t r p s).nodeType = NodeType.directory
  ∧ goodTree (insertFileIntoTree t r p s)
  ∧ (insertFileIntoTree t r p s).size = sumSizes (es ++ [⟨p, s⟩])
  ∧ (∀ d ∈ allNodesList (insertFileIntoTree t r p s).children, d.isDirectory = true →
        d.size = sumRooted d.fullPath (es ++ [⟨p, s⟩]))
  ∧ (∀ q, r.length < q.length → ¬ hasDirAt (insertFileIntoTree t r p s) q →
        sumRooted q (es ++ [⟨p, s⟩]) = 0) := by
  obtain ⟨hpre, hlen⟩ := hrp
  have hpne : p ≠ [] := by
    intro h
    rw [h] at hlen
    simp at hlen
  have hrd0 : r <+: p.dropLast := by
    rw [List.dropLast_eq_take]
    exact prefix_take_of_prefix hpre (by omega)
  have hif : insertFileIntoTree t r p s = insertChain p s (chainOf r p) (bumpSize t s) := by
    rw [insertFileIntoTree]
    rw [show parentPath p = some p.dropLast from by rw [parentPath, if_neg hpne]]
    show insertChain p s (ancestorsOf r p.dropLast) (bumpSize t s) = _
    rw [chainOf_eq_ancestors hrd0]
  have hspec := insertChain_spec p s es hbound (chainOf r p) (bumpSize t s)
    (by rw [bumpSize_nodeType]; exact hty)
    (goodTree_bumpSize.2 hg)
    (by rw [bumpSize_fullPath, hfp])
    (by rw [bumpSize_fullPath, hfp]; exact hpre)
    (by rw [bumpSize_fullPath, hfp]; exact hlen)
    (by
      intro d hd hdir
      rw [bumpSize_children] at hd
      exact hds d hd hdir)
    (by
      intro q hq hnot
      obtain ⟨k, hk1, hk2, hkq⟩ := mem_chainOf.1 hq
      refine habs q ?_ ?_
      · rw [hkq, List.length_take, Nat.min_eq_left (by omega)]; omega
      · rwa [hasDirAt_children (bumpSize_children t s)] at hnot)
  rw [hif]
  refine ⟨?_, ?_, hspec.2.2.2.2.1, ?_, hspec.2.2.2.2.2.1, ?_⟩
  · rw [hspec.2.1, bumpSize_fullPath, hfp]
  · rw [hspec.2.2.1, bumpSize_nodeType, hty]
  · rw [hspec.2.2.2.1, bumpSize_size, hsz, satAdd_eq_add hbound, sumSizes_append]
  · intro q hq hnot
    have hnotb : ¬ hasDirAt (bumpSize t s) q := by
      intro hh
      exact hnot (hspec.2.2.2.2.2.2.1 q hh)
    have hnott : ¬ hasDirAt t q := by
      rwa [hasDirAt_children (bumpSize_children t s)] at hnotb
    have h0 : sumRooted q es = 0 := habs q hq hnott
    have hnr : ¬ rootedAt q p := by
      intro ⟨hqp, hql⟩
      have hmem : q ∈ chainOf r p :=
        mem_chainOf.2 ⟨q.length, by omega, hql, (List.prefix_iff_eq_take.1 hqp)⟩
      exact hnot (hspec.2.2.2.2.2.2.2 q hmem)
    rw [sumRooted_append, if_neg hnr, h0]

end Tree

end Surf
namespace Surf

namespace Tree

theorem sumSizes_cons (e : TEntry) (es : List TEntry) :
    sumSizes (e :: es) = e.size + sumSizes es := by
  simp [sumSizes]

theorem fold_inv (r : TPath) :
    ∀ (es done : List TEntry) (t : DirNode),
      (∀ e ∈ es, rootedAt r e.path) →
      sumSizes done + sumSizes es ≤ U64MAX →
      t.fullPath = r → t.nodeType = NodeType.directory → goodTree t →
      t.size = sumSizes done →
      (∀ d ∈ allNodesList t.children, d.isDirectory = true →
          d.size = sumRooted d.fullPath done) →
      (∀ q, r.length < q.length → ¬ hasDirAt t q → sumRooted q done = 0) →
      ((es.foldl (fun t e => insertFileIntoTree t r e.path e.size) t).fullPath = r
        ∧ (es.foldl (fun t e => insertFileIntoTree t r e.path e.size) t).nodeType
            = NodeType.directory
        ∧ goodTree (es.foldl (fun t e => insertFileIntoTree t r e.path e.size) t)
        ∧ (es.foldl (fun t e => insertFileIntoTree t r e.path e.size) t).size
            = sumSizes (done ++ es)
        ∧ (∀ d ∈ allNodesList
              (es.foldl (fun t e => insertFileIntoTree t r e.path e.size) t).children,
            d.isDirectory = true → d.size = sumRooted d.fullPath (done ++ es))) := by
  intro es
  induction es with
  | nil =>
      intro done t hroot hbound hfp hty hg hsz hds habs
      simpa using ⟨hfp, hty, hg, hsz, hds⟩
  | cons e es ih =>
      intro done t hroot hbound hfp hty hg hsz hds habs
      rw [sumSizes_cons] at hbound
      have hstep := insert_inv r e.path e.size done t
        (by omega)
        (hroot e (List.mem_cons_self e es))
        hfp hty hg hsz hds habs
      have hfold := ih (done ++ [⟨e.path, e.size⟩]) (insertFileIntoTree t r e.path e.size)
        (fun e2 he2 => hroot e2 (List.mem_cons_of_mem e he2))
        (by rw [sumSizes_append]; simp only [TEntry.size]; omega)
        hstep.1 hstep.2.1 hstep.2.2.1 hstep.2.2.2.1 hstep.2.2.2.2.1 hstep.2.2.2.2.2
      have hcast : (⟨e.path, e.size⟩ : TEntry) = e := rfl
      rw [hcast] at hfold
      rw [show (done ++ [e]) ++ es = done ++ e :: es by simp] at hfold
      exact ⟨hfold.1, hfold.2.1, hfold.2.2.1, hfold.2.2.2.1, hfold.2.2.2.2⟩

theorem sortTreeList_eq_map (cs : List DirNode) :
    sortTreeList cs = cs.map (fun c => if c.isDirectory then sortTreeBySize c else c) := by
  induction cs with
  | nil => rfl
  | cons c cs ih => rw [sortTreeList, ih]; rfl

theorem sortTree_fullPath (t : DirNode) : (sortTreeBySize t).fullPath = t.fullPath := by
  obtain ⟨nm, fp, ty, sz, cs⟩ := t; rfl

theorem sortTree_nodeType (t : DirNode) : (sortTreeBySize t).nodeType = t.nodeType := by
  obtain ⟨nm, fp, ty, sz, cs⟩ := t; rfl

theorem sortTree_size (t : DirNode) : (sortTreeBySize t).size = t.size := by
  obtain ⟨nm, fp, ty, sz, cs⟩ := t; rfl

theorem sortTree_children (nm : String) (fp : TPath) (ty : NodeType) (sz : Nat)
    (cs : List DirNode) :
    (sortTreeBySize (.mk nm fp ty sz cs)).children
      = List.insertionSort childOrder (sortTreeList cs) := rfl

theorem sortTree_nodes : ∀ t : DirNode, ∀ d ∈ allNodes (sortTreeBySize t),
    ∃ d₀ ∈ allNodes t, d.fullPath = d₀.fullPath ∧ d.nodeType = d₀.nodeType
      ∧ d.size = d₀.size := by
  apply indOn
  intro nm fp ty sz cs ih d hd
  rw [show allNodes (sortTreeBySize (.mk nm fp ty sz cs))
      = sortTreeBySize (.mk nm fp ty sz cs)
        :: allNodesList (List.insertionSort childOrder (sortTreeList cs)) from rfl] at hd
  rcases List.mem_cons.1 hd with rfl | hd2
  · refine ⟨.mk nm fp ty sz cs, self_mem_allNodes _, ?_, ?_, ?_⟩
    · rw [sortTree_fullPath]
    · rw [sortTree_nodeType]
    · rw [sortTree_size]
  · obtain ⟨c', hc', hdc'⟩ := mem_allNodesList.1 hd2
    have hc'2 : c' ∈ sortTreeList cs :=
      (List.perm_insertionSort childOrder (sortTreeList cs)).subset hc'
    rw [sortTreeList_eq_map, List.mem_map] at hc'2
    obtain ⟨c, hc, hcc'⟩ := hc'2
    by_cases hdir : c.isDirectory
    · rw [if_pos hdir] at hcc'
      rw [← hcc'] at hdc'
      obtain ⟨d₀, hd₀, hfp, hty, hsz⟩ := ih c hc d hdc'
      refine ⟨d₀, ?_, hfp, hty, hsz⟩
      rw [show allNodes (DirNode.mk nm fp ty sz cs)
        = DirNode.mk nm fp ty sz cs :: allNodesList cs from rfl]
      exact List.mem_cons_of_mem _ (mem_allNodesList.2 ⟨c, hc, hd₀⟩)
    · rw [if_neg hdir] at hcc'
      rw [← hcc'] at hdc'
      refine ⟨d, ?_, rfl, rfl, rfl⟩
      rw [show allNodes (DirNode.mk nm fp ty sz cs)
        = DirNode.mk nm fp ty sz cs :: allNodesList cs from rfl]
      exact List.mem_cons_of_mem _ (mem_allNodesList.2 ⟨c, hc, hdc'⟩)

theorem sortTree_sorted : ∀ t : DirNode, goodTree t →
    ∀ d ∈ allNodes (sortTreeBySize t), List.Sorted childOrder d.children := by
  apply indOn
  intro nm fp ty sz cs ih hg d hd
  haveI : IsTotal DirNode childOrder := ⟨fun a b => Nat.le_total b.size a.size⟩
  haveI : IsTrans DirNode childOrder := ⟨fun a b c hab hbc => le_trans hbc hab⟩
  rw [show allNodes (sortTreeBySize (.mk nm fp ty sz cs))
      = sortTreeBySize (.mk nm fp ty sz cs)
        :: allNodesList (List.insertionSort childOrder (sortTreeList cs)) from rfl] at hd
  rcases List.mem_cons.1 hd with rfl | hd2
  · rw [show (sortTreeBySize (DirNode.mk nm fp ty sz cs)).children
      = List.insertionSort childOrder (sortTreeList cs) from rfl]
    exact List.sorted_insertionSort childOrder (sortTreeList cs)
  · obtain ⟨c', hc', hdc'⟩ := mem_allNodesList.1 hd2
    have hc'2 : c' ∈ sortTreeList cs :=
      (List.perm_insertionSort childOrder (sortTreeList cs)).subset hc'
    rw [sortTreeList_eq_map, List.mem_map] at hc'2
    obtain ⟨c, hc, hcc'⟩ := hc'2
    have hgc : goodTree c := goodList_mem (goodTree_children hg).2.2.2 hc
    by_cases hdir : c.isDirectory
    · rw [if_pos hdir] at hcc'
      rw [← hcc'] at hdc'
      exact ih c hc hgc d hdc'
    · rw [if_neg hdir] at hcc'
      rw [← hcc'] at hdc'
      obtain ⟨cn, cf, cty, csz, ccs⟩ := c
      have hty2 : cty = NodeType.file := by
        rcases cty with _ | _
        · rfl
        · exact absurd (isDirectory_iff.2
            (show (DirNode.mk cn cf NodeType.directory csz ccs).nodeType
                = NodeType.directory from rfl)) hdir
      have hleaf : ccs = [] := (goodTree_children hgc).2.2.1 hty2
      subst hleaf
      rw [show allNodes (DirNode.mk cn cf cty csz []) = [DirNode.mk cn cf cty csz []]
        from rfl] at hdc'
      rw [List.mem_singleton.1 hdc']
      exact List.sorted_nil

end Tree

end Surf
namespace Surf

namespace Tree

theorem allNodes_eq (t : DirNode) : allNodes t = t :: allNodesList t.children := by
  obtain ⟨nm, fp, ty, sz, cs⟩ := t; rfl

theorem goodTree_newDirectory (r : TPath) : goodTree (newDirectory r) := by
  refine goodTree_of_parts ⟨?_, ?_, ?_, ?_⟩
  · intro c hc; simp [newDirectory] at hc
  · simp [newDirectory]
  · intro h; simp at h
  · exact trivial

theorem sumRooted_all {r : TPath} {es : List TEntry}
    (h : ∀ e ∈ es, rootedAt r e.path) : sumRooted r es = sumSizes es := by
  rw [sumRooted, List.filter_eq_self.2 (fun e he => decide_eq_true (h e he))]

end Tree

end Surf
namespace Surf

/-- Claim C5: for every tree returned by `build_tree` from a flat entry list
(entry paths strictly below the root path, total size within `u64`), every
directory node's size equals the sum of the sizes of the entries whose path
is rooted at that directory — for the root node this sum is the total over
all entries — and at every node of the tree the children are sorted by size
descending. -/
theorem claim_C5 (r : Tree.TPath) (es : List Tree.TEntry)
    (hroot : ∀ e ∈ es, Tree.rootedAt r e.path)
    (hbound : Tree.sumSizes es ≤ U64MAX) :
    (Tree.build_tree r es).size = Tree.sumSizes es
  ∧ (∀ d ∈ Tree.allNodes (Tree.build_tree r es), d.isDirectory = true →
        d.size = Tree.sumRooted d.fullPath es)
  ∧ (∀ d ∈ Tree.allNodes (Tree.build_tree r es),
        List.Sorted Tree.childOrder d.children) := by
  have hfold := Tree.fold_inv r es [] (Tree.newDirectory r)
    hroot
    (by have h0 : Tree.sumSizes [] = 0 := rfl
        omega)
    rfl rfl (Tree.goodTree_newDirectory r)
    (by simp [Tree.sumSizes, Tree.newDirectory, Tree.DirNode.size])
    (by intro d hd; simp [Tree.newDirectory, Tree.DirNode.children, Tree.allNodesList] at hd)
    (by intro q _ _; exact Tree.sumRooted_nil q)
  rw [List.nil_append] at hfold
  obtain ⟨hfp, hty, hg, hsz, hds⟩ := hfold
  have hbt : Tree.build_tree r es
      = Tree.sortTreeBySize
          (es.foldl (fun t e => Tree.insertFileIntoTree t r e.path e.size)
            (Tree.newDirectory r)) := rfl
  refine ⟨?_, ?_, ?_⟩
  · rw [hbt, Tree.sortTree_size, hsz]
  · intro d hd hdir
    rw [hbt] at hd
    obtain ⟨d₀, hd₀, hdfp, hdty, hdsz⟩ := Tree.sortTree_nodes _ d hd
    have hd₀dir : d₀.isDirectory = true :=
      Tree.isDirectory_iff.2 (hdty ▸ Tree.isDirectory_iff.1 hdir)
    rw [Tree.allNodes_eq] at hd₀
    rcases List.mem_cons.1 hd₀ with rfl | hd₀2
    · rw [hdsz, hsz, hdfp, hfp, Tree.sumRooted_all hroot]
    · rw [hdsz, hdfp, hds d₀ hd₀2 hd₀dir]
  · intro d hd
    rw [hbt] at hd
    exact Tree.sortTree_sorted _ hg d hd

/-- Witness for claim C5: the invariant for the concrete scenario tree built
from `/root/a.bin` (10), `/root/sub1/b.bin` (20), `/root/sub1/deep/c.bin`
(30) under root path `/root`. -/
theorem claim_C5_witness :
    (∀ e ∈ Fixtures.es0, Tree.rootedAt Fixtures.r0 e.path)
  ∧ Tree.sumSizes Fixtures.es0 ≤ U64MAX
  ∧ ((Tree.build_tree Fixtures.r0 Fixtures.es0).size = Tree.sumSizes Fixtures.es0
      ∧ (∀ d ∈ Tree.allNodes (Tree.build_tree Fixtures.r0 Fixtures.es0),
            d.isDirectory = true →
            d.size = Tree.sumRooted d.fullPath Fixtures.es0)
      ∧ (∀ d ∈ Tree.allNodes (Tree.build_tree Fixtures.r0 Fixtures.es0),
            List.Sorted Tree.childOrder d.children)) :=
  ⟨by decide, by decide, claim_C5 Fixtures.r0 Fixtures.es0 (by decide) (by decide)⟩

end Surf
